import Mathlib

/-!
Verification development for the docker tarexport OCI save/load engine.

The embedding is parameterized over a digest type `δ` and a byte-string type
`β`: the Go code works with `digest.Digest` (a string of the form
`<algo>:<hex>`) and `[]byte`; all claims are insensitive to the concrete
representation, and the parametricity lets concrete witnesses pick types on
which the cryptographic-hash collision-freedom hypotheses hold by
construction.

Collaborator services (image store `IS`, layer store `LS`, the blob staging
of `containers/image`, JSON codecs, gzip) are not part of the source tree;
following the spec they are consumed as injected capabilities, collected in
the `Env` structure below.  Functions whose behaviour is taken from the
spec rather than the source carry a `Modelled from the spec:` doc comment.
-/

namespace Docker

/-- Association-list lookup keyed by decidable equality (Go map read). -/
def alookup {α γ : Type} [DecidableEq α] (k : α) : List (α × γ) → Option γ
  | [] => none
  | (k', v) :: rest => if k' = k then some v else alookup k rest

/-- Association-list insert-or-replace (Go map write `m[k] = v`). -/
def upsert {α γ : Type} [DecidableEq α] (k : α) (v : γ) : List (α × γ) → List (α × γ)
  | [] => [(k, v)]
  | (k', v') :: rest => if k' = k then (k, v) :: rest else (k', v') :: upsert k v rest

/-- A name together with a tag (`reference.NamedTagged`). -/
structure NamedTagged where
  name : String
  tag : String
deriving DecidableEq, Repr

/-- The normalized string form `name:tag` of a tagged reference
(`tagged.String()` in the source). -/
def ntString (nt : NamedTagged) : String :=
  nt.name ++ ":" ++ nt.tag

/-- Parsed form of a user-facing reference (the `reference.Named` variants
used by the source: canonical digest references, bare names, name+tag). -/
inductive Ref
  | canonical (name : String) (dgst : String)
  | nameOnly (name : String)
  | tagged (nt : NamedTagged)
deriving DecidableEq, Repr

/-- `reference.DefaultTag`. -/
def defaultTag : String := "latest"

/-- Normalization applied by the source: a bare name receives the default
tag `latest` via `reference.WithTag(r, reference.DefaultTag)`; tagged
references pass through.  Canonical references are filtered out by the
callers before this is used. -/
def normalizeRef : Ref → NamedTagged
  | .canonical n d => ⟨n, "@" ++ d⟩
  | .nameOnly n => ⟨n, defaultTag⟩
  | .tagged nt => nt

/-- Display form of a parsed reference, used in error messages (the original
`image` key string of the `--ref` map entry). -/
def refKeyString : Ref → String
  | .canonical n d => n ++ "@" ++ d
  | .nameOnly n => n
  | .tagged nt => ntString nt

/-- The character class of `ociRefRegexp` (`^([A-Za-z0-9._-]+)+$`): letters,
digits, dot, underscore and hyphen. -/
def ociRefChar (c : Char) : Bool :=
  c.isAlpha || c.isDigit || c = '.' || c = '_' || c = '-'

/-- Whether a string matches `ociRefRegexp = ^([A-Za-z0-9._-]+)+$`, i.e. is
nonempty and drawn from the allowed character class. -/
def ociRefMatch (s : String) : Bool :=
  !s.isEmpty && s.toList.all ociRefChar

/-- Whether a string is a syntactically valid tag for
`reference.WithTag` (grammar `[\w][\w.-]{0,127}`). -/
def validTag (s : String) : Bool :=
  match s.toList with
  | [] => false
  | c :: rest =>
    (c.isAlpha || c.isDigit || c = '_') && rest.length ≤ 127 &&
      rest.all (fun c' => c'.isAlpha || c'.isDigit || c' = '_' || c' = '.' || c' = '-')

/-- The error text of `getRefs` for an override outside the allowed
character class; it names the offending `name=ref` pair. -/
def invalidRefMsg (key ref : String) : String :=
  "invalid reference \"" ++ key ++ "=" ++ ref ++
    "\", reference must not include characters outside of the set of \"A\" to \"Z\", \"a\" to \"z\", \"0\" to \"9\", the hyphen \"-\", the dot \".\", and the underscore \"_\""

/-- The error text of `addAssoc` for a duplicated tag component. -/
def dupMsg (tag : String) : String :=
  "unable to include unique references \"" ++ tag ++ "\" in OCI image"

/-- The error text surfaced when `reference.WithTag` rejects an override
value as a tag. -/
def invalidTagMsg (tag : String) : String :=
  "invalid tag format: " ++ tag

/-- `tarexporter.getRefs`: walk the `--ref` override entries (given here in
their parsed form, paired with the override value); skip entries keyed by a
canonical digest reference, default the tag of name-only keys, reject
override values outside `ociRefRegexp` naming the offending pair, and
collect a map from the normalized `name:tag` key to the override value. -/
def getRefsAux (acc : List (String × String)) :
    List (Ref × String) → Except String (List (String × String))
  | [] => .ok acc
  | (k, ref) :: rest =>
    match k with
    | .canonical _ _ => getRefsAux acc rest
    | k =>
      let tagged := normalizeRef k
      if ociRefMatch ref then
        getRefsAux (upsert (ntString tagged) ref acc) rest
      else
        .error (invalidRefMsg (refKeyString k) ref)

/-- `tarexporter.getRefs`, entry point: starts from the empty map. -/
def getRefs (entries : List (Ref × String)) : Except String (List (String × String)) :=
  getRefsAux [] entries

/-- Whether a string is free of the `:` separator; true of every tag the
reference grammar can produce. -/
def colonFree (s : String) : Bool :=
  s.toList.all (fun c => c ≠ ':')

/-- State of the name-resolution loop of `parseOCINames`: the descriptor
map `imgDescr` (image ID → ordered reference list) and the set `tags` of
tag components already claimed (the OCI uniqueness rule). -/
structure AssocState (δ : Type) where
  imgDescr : List (δ × List NamedTagged)
  tags : List String
deriving DecidableEq, Repr

/-- The reference list the descriptor map associates to `id`
(`imgDescr[id].refs`; empty when absent). -/
def refsOf {δ : Type} [DecidableEq δ] (st : AssocState δ) (id : δ) : List NamedTagged :=
  (alookup id st.imgDescr).getD []

/-- `if _, ok := imgDescr[id]; !ok { imgDescr[id] = &imageDescriptor{} }`. -/
def ensureDescr {δ : Type} [DecidableEq δ] (id : δ) (m : List (δ × List NamedTagged)) :
    List (δ × List NamedTagged) :=
  match alookup id m with
  | some _ => m
  | none => upsert id [] m

/-- `imgDescr[id].refs = append(imgDescr[id].refs, tagged)`. -/
def appendRef {δ : Type} [DecidableEq δ] (id : δ) (nt : NamedTagged)
    (m : List (δ × List NamedTagged)) : List (δ × List NamedTagged) :=
  upsert id ((alookup id m).getD [] ++ [nt]) m

/-- The override lookup of `addAssoc`: if the override map holds the
normalized `name:tag` key, re-tag with the override value via
`reference.WithTag(tagged, r)`, which rejects a syntactically invalid
tag. -/
def withOverride (refs : List (String × String)) (tagged : NamedTagged) :
    Except String NamedTagged :=
  match alookup (ntString tagged) refs with
  | some o => if validTag o then .ok { tagged with tag := o } else .error (invalidTagMsg o)
  | none => .ok tagged

/-- The value `withOverride` produces when the override tag is valid. -/
def overriddenNT (refs : List (String × String)) (tagged : NamedTagged) : NamedTagged :=
  match alookup (ntString tagged) refs with
  | some o => { tagged with tag := o }
  | none => tagged

/-- The reference recorded for a non-canonical reference: normalize, then
apply the `--ref` override. -/
def overriddenRef (refs : List (String × String)) (r : Ref) : NamedTagged :=
  overriddenNT refs (normalizeRef r)

/-- Whether a parsed reference is a canonical (digest) reference (the
`_, ok := ref.(reference.Canonical)` type assertion). -/
def isCanonical : Ref → Bool
  | .canonical _ _ => true
  | _ => false

/-- The recording step of `addAssoc` once the override is applied: skip a
reference string the image already carries, fail on an already-claimed tag
component, otherwise claim the tag and append the reference. -/
def addAssocCore {δ : Type} [DecidableEq δ] (st : AssocState δ) (id : δ)
    (tagged' : NamedTagged) : Except String (AssocState δ) :=
  if (refsOf st id).any (fun t => ntString tagged' = ntString t) then
    .ok st
  else if tagged'.tag ∈ st.tags then
    .error (dupMsg tagged'.tag)
  else
    .ok { imgDescr := appendRef id tagged' st.imgDescr, tags := tagged'.tag :: st.tags }

/-- The non-canonical core of the `addAssoc` closure: normalize the
reference, apply the `--ref` override (propagating the
`reference.WithTag` failure on an invalid override tag), then record the
resulting reference. -/
def addAssocRef {δ : Type} [DecidableEq δ] (refs : List (String × String)) (st : AssocState δ)
    (id : δ) (r : Ref) : Except String (AssocState δ) :=
  match withOverride refs (normalizeRef r) with
  | .error e => .error e
  | .ok tagged' => addAssocCore st id tagged'

/-- The `addAssoc` closure of `parseOCINames` in `save_oci.go`: ensure a
descriptor entry for `id`; a nil or canonical (digest) reference adds
nothing further; otherwise process the named reference. -/
def addAssoc {δ : Type} [DecidableEq δ] (refs : List (String × String)) (st : AssocState δ)
    (id : δ) (oref : Option Ref) : Except String (AssocState δ) :=
  let st' : AssocState δ := { st with imgDescr := ensureDescr id st.imgDescr }
  match oref with
  | none => .ok st'
  | some r => if isCanonical r = true then .ok st' else addAssocRef refs st' id r

/-- The driving loop of `parseOCINames`, applied to the resolved
`(image ID, reference)` pairs that the token-resolution steps feed to
`addAssoc` (`nil` reference for bare-ID and digest-search tokens). -/
def parseOCINames {δ : Type} [DecidableEq δ] (refs : List (String × String))
    (st : AssocState δ) : List (δ × Option Ref) → Except String (AssocState δ)
  | [] => .ok st
  | (id, oref) :: rest =>
    match addAssoc refs st id oref with
    | .ok st1 => parseOCINames refs st1 rest
    | .error e => .error e

/-- Invariant of the name-resolution state: every recorded reference's tag
is claimed in `tags` and free of `:`, and the tag component is injective
across all recorded references (the OCI uniqueness rule). -/
def AInv {δ : Type} [DecidableEq δ] (st : AssocState δ) : Prop :=
  (∀ id nt, nt ∈ refsOf st id → nt.tag ∈ st.tags ∧ colonFree nt.tag = true) ∧
  (∀ id1 id2 nt1 nt2, nt1 ∈ refsOf st id1 → nt2 ∈ refsOf st id2 →
    nt1.tag = nt2.tag → nt1 = nt2)

/-- A tag component genuinely duplicated among the resolved entries after
applying the `--ref` override map: `t` is carried by the overridden forms
of two non-canonical entry references that differ as reference strings or
belong to different image IDs — exactly the collisions the session-global
`tags` map of `addAssoc` can report. -/
def IsConflictTag {δ : Type} (refs : List (String × String))
    (entries : List (δ × Option Ref)) (t : String) : Prop :=
  ∃ ida idb ra rb,
    (ida, some ra) ∈ entries ∧ (idb, some rb) ∈ entries ∧
    isCanonical ra = false ∧ isCanonical rb = false ∧
    (overriddenRef refs ra).tag = t ∧ (overriddenRef refs rb).tag = t ∧
    (ntString (overriddenRef refs ra) ≠ ntString (overriddenRef refs rb) ∨ ida ≠ idb)

/-- Origin of the recorded references: every reference the resolution
state has recorded is the overridden form of some non-canonical named
entry of the input, recorded under that entry's image ID. -/
def OriginInv {δ : Type} [DecidableEq δ] (refs : List (String × String))
    (entries : List (δ × Option Ref)) (st : AssocState δ) : Prop :=
  ∀ id nt, nt ∈ refsOf st id →
    ∃ r, (id, some r) ∈ entries ∧ isCanonical r = false ∧ nt = overriddenRef refs r

/-- Origin of the claimed tags: every tag the `tags` set of the
resolution state has claimed is the tag component of some recorded
reference. -/
def TagOrigin {δ : Type} [DecidableEq δ] (st : AssocState δ) : Prop :=
  ∀ t ∈ st.tags, ∃ id nt, nt ∈ refsOf st id ∧ nt.tag = t

/-- The resolved-entry list of `TestSaveOCIReferencesConflicts`: two
distinct images both referenced with the tag `latest`. -/
def demoConflictEntries : List (Nat × Option Ref) :=
  [(1, some (Ref.tagged { name := "busybox", tag := "latest" })),
   (2, some (Ref.tagged { name := "frombusybox0", tag := "latest" }))]

/-- A resolved-entry list with two independent tag conflicts: tag `a`
between images 1 and 2, then tag `b` between images 3 and 4. -/
def demoTwoConflictEntries : List (Nat × Option Ref) :=
  [(1, some (Ref.tagged { name := "busybox", tag := "a" })),
   (2, some (Ref.tagged { name := "frombusybox0", tag := "a" })),
   (3, some (Ref.tagged { name := "busybox2", tag := "b" })),
   (4, some (Ref.tagged { name := "frombusybox1", tag := "b" }))]

/-- `imgspecv1.MediaTypeImageManifest`. -/
def mediaTypeManifest : String := "application/vnd.oci.image.manifest.v1+json"

/-- `imgspecv1.MediaTypeImageConfig`. -/
def mediaTypeConfig : String := "application/vnd.oci.image.config.v1+json"

/-- `imgspecv1.MediaTypeImageLayer`. -/
def mediaTypeLayer : String := "application/vnd.oci.image.layer.v1.tar+gzip"

/-- OCI content descriptor `{mediaType, digest, size}`. -/
structure Descriptor (δ : Type) where
  mediaType : String
  digest : δ
  size : Int
deriving DecidableEq, Repr

/-- OCI image manifest `{schemaVersion, mediaType, config, layers}`. -/
structure Manifest (δ : Type) where
  schemaVersion : Nat
  mediaType : String
  config : Descriptor δ
  layers : List (Descriptor δ)
deriving DecidableEq, Repr

/-- An image as the engine sees it: its raw configuration JSON
(`img.RawJSON()`) and its `RootFS.DiffIDs`. -/
structure Image (δ β : Type) where
  rawJSON : β
  diffIDs : List δ
deriving DecidableEq, Repr

/-- A layer-store handle; only its `DiffID()` is observed by this engine. -/
structure Layer (δ : Type) where
  diffID : δ
deriving DecidableEq, Repr

/-- The collaborator services of both sessions, injected per the spec.
`δ` is the digest type, `β` the byte-string type.

Modelled from the spec: the image store `IS`, layer store `LS`,
the blob writer of `containers/image`, the JSON codecs and gzip live
outside this source tree, so they enter as capabilities:
`hash` is the cryptographic digest over a byte string (content addressing
of `PutBlob` and the canonical ImageID); `lsGet` addresses `LS` by the
ChainID of a DiffID prefix, represented by that prefix itself (the chain
digest is determined by it); `hydrate` is `loadLayer`, registering a
decompressed blob under a parent chain and returning the new handle;
`tarStream`/`gzipStream` produce a layer's uncompressed tar and its gzip
compression; `encodeManifest`/`decodeManifest`/`decodeImage` are the JSON
codecs; `digestStr`/`hexStr` render a digest as `algo:hex` and bare hex. -/
structure Env (δ β : Type) where
  hash : β → δ
  blobLen : β → Int
  isGet : δ → Option (Image δ β)
  lsGet : List δ → Option (Layer δ)
  tarStream : Layer δ → β
  gzipStream : β → β
  encodeManifest : Manifest δ → β
  decodeManifest : β → Option (Manifest δ)
  decodeImage : β → Option (Image δ β)
  hydrate : List δ → β → Option (Layer δ)
  digestStr : δ → String
  hexStr : δ → String

/-- The OCI image-layout staging area: content-addressed blobs
(`blobs/<algo>/<hex>`, keyed here by the digest) and the per-reference
descriptor files under `refs/`. -/
structure OCIArchive (δ β : Type) where
  blobs : List (δ × β)
  refFiles : List (String × Descriptor δ)
deriving DecidableEq, Repr

/-- Observable emission events of a save session, in order: a config blob
put for an image, a gzip compression of a layer, a manifest/ref emission
for a tag. -/
inductive SaveEvent (δ : Type)
  | config (id : δ)
  | compress (d : δ)
  | manifest (tag : String)
deriving DecidableEq, Repr

/-- State of `ociSaveSession`: the staging archive, the
`savedImages : image.ID → manifest bytes` cache, the
`diffIDsCache : DiffID → (blob digest, size)` cache, and the emission
event log. -/
structure SaveState (δ β : Type) where
  archive : OCIArchive δ β
  savedImages : List (δ × β)
  diffIDsCache : List (δ × (δ × Int))
  events : List (SaveEvent δ)
deriving DecidableEq, Repr

/-- The save-session state at session start (`make(map[...])` in `save`). -/
def emptySaveState {δ β : Type} : SaveState δ β :=
  { archive := { blobs := [], refFiles := [] }, savedImages := [], diffIDsCache := [],
    events := [] }

/-- Modelled from the spec: `ociDest.PutBlob` of `containers/image` is
absent from this tree; per the spec it stages the bytes at their
content-addressed path `blobs/<algo>/<hex>` and returns the digest and
size computed over the stored bytes. -/
def putBlob {δ β : Type} [DecidableEq δ] (env : Env δ β) (a : OCIArchive δ β) (b : β) :
    OCIArchive δ β × δ × Int :=
  let d := env.hash b
  ({ a with blobs := upsert d b a.blobs }, d, env.blobLen b)

/-- Modelled from the spec: `ociDest.PutManifest` of `containers/image` is
absent from this tree; per the spec it stages the manifest bytes as a blob
and writes `refs/<tag>` holding the Descriptor that points at the manifest
blob. -/
def putManifest {δ β : Type} [DecidableEq δ] (env : Env δ β) (a : OCIArchive δ β)
    (tag : String) (m : β) : OCIArchive δ β :=
  let d := env.hash m
  { blobs := upsert d m a.blobs,
    refFiles := upsert tag { mediaType := mediaTypeManifest, digest := d, size := env.blobLen m } a.refFiles }

/-- The per-layer loop of `ociSaveSession.saveImage`: for each DiffID (with
`done` the prefix already processed), fetch the layer from `LS` by its
chain, reuse the cached `(blob digest, size)` for an already-compressed
DiffID, otherwise gzip the layer's tar stream into a new blob and cache
the result, and append the layer descriptor to the manifest. -/
def saveLayers {δ β : Type} [DecidableEq δ] (env : Env δ β) :
    SaveState δ β → Manifest δ → List δ → List δ → Except String (SaveState δ β × Manifest δ)
  | st, m, _, [] => .ok (st, m)
  | st, m, done, d :: rest =>
    match env.lsGet (done ++ [d]) with
    | none => .error "layer does not exist"
    | some l =>
      match alookup l.diffID st.diffIDsCache with
      | some (dg, sz) =>
        saveLayers env st
          { m with layers := m.layers ++ [{ mediaType := mediaTypeLayer, digest := dg, size := sz }] }
          (done ++ [d]) rest
      | none =>
        let blob := env.gzipStream (env.tarStream l)
        let staged := putBlob env st.archive blob
        let st1 : SaveState δ β :=
          { st with archive := staged.1,
                    diffIDsCache := upsert l.diffID (staged.2.1, staged.2.2) st.diffIDsCache,
                    events := st.events ++ [.compress l.diffID] }
        saveLayers env st1
          { m with layers := m.layers ++ [{ mediaType := mediaTypeLayer, digest := staged.2.1, size := staged.2.2 }] }
          (done ++ [d]) rest

/-- `ociSaveSession.saveImage`: an image already saved in this session only
gets a new `refs/` entry for the new tag; otherwise fetch it from `IS`,
reject a zero-layer image, stage its config blob, stream every layer,
build the manifest, stage it under the tag and record it in
`savedImages`. -/
def saveImage {δ β : Type} [DecidableEq δ] (env : Env δ β) (st : SaveState δ β)
    (id : δ) (tag : String) : Except String (SaveState δ β) :=
  match alookup id st.savedImages with
  | some m =>
    .ok { st with archive := putManifest env st.archive tag m,
                  events := st.events ++ [.manifest tag] }
  | none =>
    match env.isGet id with
    | none => .error "no such image"
    | some img =>
      if img.diffIDs.isEmpty then .error "empty export - not implemented"
      else
        let staged := putBlob env st.archive img.rawJSON
        let st1 : SaveState δ β :=
          { st with archive := staged.1, events := st.events ++ [.config id] }
        let m0 : Manifest δ :=
          { schemaVersion := 2, mediaType := mediaTypeManifest,
            config := { mediaType := mediaTypeConfig, digest := staged.2.1, size := staged.2.2 },
            layers := [] }
        match saveLayers env st1 m0 [] img.diffIDs with
        | .error e => .error e
        | .ok (st2, m) =>
          let mJSON := env.encodeManifest m
          .ok { st2 with archive := putManifest env st2.archive tag mJSON,
                         savedImages := upsert id mJSON st2.savedImages,
                         events := st2.events ++ [.manifest tag] }

/-- The inner loop of `ociSaveSession.save` over one image's references:
each reference stages the image under its tag. -/
def saveRefs {δ β : Type} [DecidableEq δ] (env : Env δ β) (st : SaveState δ β) (id : δ) :
    List NamedTagged → Except String (SaveState δ β)
  | [] => .ok st
  | r :: rest =>
    match saveImage env st id r.tag with
    | .ok st1 => saveRefs env st1 id rest
    | .error e => .error e

/-- `ociSaveSession.save`: iterate the resolved descriptor map (given here
in its iteration order), staging each image once per reference, and an
image without references under its ID hex. -/
def saveAll {δ β : Type} [DecidableEq δ] (env : Env δ β) (st : SaveState δ β) :
    List (δ × List NamedTagged) → Except String (SaveState δ β)
  | [] => .ok st
  | (id, refs) :: rest =>
    match saveRefs env st id refs with
    | .error e => .error e
    | .ok st1 =>
      if refs.isEmpty then
        match saveImage env st1 id (env.hexStr id) with
        | .ok st2 => saveAll env st2 rest
        | .error e => .error e
      else saveAll env st1 rest

/-- The OCI save pipeline end to end: resolve the `--ref` overrides, run
name resolution, then stage every resolved image from a fresh session
state. -/
def ociSaveTop {δ β : Type} [DecidableEq δ] (env : Env δ β) (overrides : List (Ref × String))
    (entries : List (δ × Option Ref)) : Except String (SaveState δ β) :=
  match getRefs overrides with
  | .error e => .error e
  | .ok refs =>
    match parseOCINames refs { imgDescr := [], tags := [] } entries with
    | .error e => .error e
    | .ok st => saveAll env emptySaveState st.imgDescr

/-- The persistent stores a load session touches: the image store `IS`
(ImageID → configuration blob) and the reference store `RS`
(reference → ImageID). -/
structure LoadState (δ β : Type) where
  is : List (δ × β)
  rs : List (String × δ)
deriving DecidableEq, Repr

/-- Modelled from the spec: `IS.Create` is absent from this tree; per the
spec it registers the configuration blob and returns the canonical
ImageID, the digest over the configuration JSON, idempotently on that
ID. -/
def isCreate {δ β : Type} [DecidableEq δ] (env : Env δ β) (st : LoadState δ β) (config : β) :
    LoadState δ β × δ :=
  let id := env.hash config
  ({ st with is := upsert id config st.is }, id)

/-- The `refs/` walk of `loadOCI`: decode each ref file's Descriptor, open
the manifest blob it points at, decode it, and record it in the
`manifests` map under the ref file's name. -/
def collectManifests {δ β : Type} [DecidableEq δ] (env : Env δ β) (a : OCIArchive δ β) :
    List (String × Descriptor δ) → List (String × Manifest δ) →
    Except String (List (String × Manifest δ))
  | [], ms => .ok ms
  | (name, desc) :: rest, ms =>
    match alookup desc.digest a.blobs with
    | none => .error "open manifest blob: no such file"
    | some mb =>
      match env.decodeManifest mb with
      | none => .error "invalid manifest json"
      | some man => collectManifests env a rest (upsert name man ms)

/-- The error text of `loadOCI` for a manifest whose layer count disagrees
with the config's DiffID count. -/
def lenMismatchMsg (expected actual : Nat) : String :=
  "invalid manifest, layers length mismatch: expected " ++ toString expected ++
    ", got " ++ toString actual

/-- The error text of `loadOCI` for a hydrated layer whose DiffID disagrees
with the declared one. -/
def diffIDMismatchMsg (i : Nat) (expected actual : String) : String :=
  "invalid diffID for layer " ++ toString i ++ ": expected " ++ expected ++
    ", got " ++ actual

/-- How `loadOCI` obtains layer `i` with declared DiffID `d` after the
prefix `done`: reuse the chain if `LS` has it, otherwise hydrate the blob
named by the manifest's `i`-th layer descriptor. -/
def layerAt {δ β : Type} [DecidableEq δ] (env : Env δ β) (a : OCIArchive δ β)
    (m : Manifest δ) (done : List δ) (i : Nat) (d : δ) : Except String (Layer δ) :=
  match env.lsGet (done ++ [d]) with
  | some l => .ok l
  | none =>
    match m.layers.get? i with
    | none => .error "layer descriptor missing"
    | some desc =>
      match alookup desc.digest a.blobs with
      | none => .error "open layer blob: no such file"
      | some b =>
        match env.hydrate done b with
        | none => .error "load layer"
        | some l => .ok l

/-- The per-layer loop of `loadOCI`: obtain each layer (with `done` the
DiffID prefix already applied), then require the resulting layer's DiffID
to equal the declared one. -/
def checkLayers {δ β : Type} [DecidableEq δ] (env : Env δ β) (a : OCIArchive δ β)
    (m : Manifest δ) : List δ → Nat → List δ → Except String Unit
  | _, _, [] => .ok ()
  | done, i, d :: rest =>
    match layerAt env a m done i d with
    | .error e => .error e
    | .ok l =>
      if l.diffID = d then checkLayers env a m (done ++ [d]) (i + 1) rest
      else .error (diffIDMismatchMsg i (env.digestStr d) (env.digestStr l.diffID))

/-- Processing of one manifest by `loadOCI`: read and decode the config
blob, require the layer counts to agree, validate and hydrate every layer,
then register the image via `IS.Create` and produce its progress line.
Error paths return the stores unchanged. -/
def loadManifest {δ β : Type} [DecidableEq δ] (env : Env δ β) (a : OCIArchive δ β)
    (st : LoadState δ β) (m : Manifest δ) : LoadState δ β × Except String String :=
  match alookup m.config.digest a.blobs with
  | none => (st, .error "open config blob: no such file")
  | some config =>
    match env.decodeImage config with
    | none => (st, .error "invalid image config")
    | some img =>
      if m.layers.length ≠ img.diffIDs.length then
        (st, .error (lenMismatchMsg m.layers.length img.diffIDs.length))
      else
        match checkLayers env a m [] 0 img.diffIDs with
        | .error e => (st, .error e)
        | .ok _ =>
          let created := isCreate env st config
          (created.1, .ok ("Loaded image ID: " ++ env.digestStr created.2 ++ "\n"))

/-- The manifest loop of `loadOCI`, accumulating `imageIDsStr` and stopping
at the first failing manifest with the stores as mutated so far. -/
def loadOCIGo {δ β : Type} [DecidableEq δ] (env : Env δ β) (a : OCIArchive δ β)
    (st : LoadState δ β) (acc : String) :
    List (String × Manifest δ) → LoadState δ β × Except String String
  | [] => (st, .ok acc)
  | (_, m) :: rest =>
    match loadManifest env a st m with
    | (st1, .ok line) => loadOCIGo env a st1 (acc ++ line) rest
    | (st1, .error e) => (st1, .error e)

/-- `tarexporter.loadOCI`: collect the manifests named under `refs/`, then
process each one.  `imageRefCount` is hardcoded to zero in the source, so
on success the accumulated `Loaded image ID:` lines are always what is
written to the output stream; the returned string is that output.  The
reference store is never consulted. -/
def loadOCI {δ β : Type} [DecidableEq δ] (env : Env δ β) (a : OCIArchive δ β)
    (st : LoadState δ β) : LoadState δ β × Except String String :=
  match collectManifests env a a.refFiles [] with
  | .error e => (st, .error e)
  | .ok ms => loadOCIGo env a st "" ms

/-- The flag set of the `docker load` CLI command. -/
structure LoadOptions where
  input : String
  quiet : Bool
  name : String
  refs : List String
  direct : String
deriving DecidableEq, Repr

/-- `types.ImageLoadOptions`, the request options sent to the daemon. -/
structure ImageLoadOptions where
  quiet : Bool
  name : String
  refs : List String
  direct : String
deriving DecidableEq, Repr

/-- `runLoad` from `cli/command/image/load.go`, up to the request it sends:
reject `-input` together with `-direct`, fail if the input file cannot be
opened (`openOk` stands for that `os.Open` outcome), force quiet mode when
stdout is not a terminal, and assemble the `ImageLoadOptions`. -/
def runLoad (opts : LoadOptions) (outIsTerminal : Bool) (openOk : Bool) :
    Except String ImageLoadOptions :=
  if opts.direct ≠ "" ∧ opts.input ≠ "" then
    .error "-input and -direct cannot be used at the same time"
  else if opts.input ≠ "" ∧ ¬openOk then
    .error "open input file"
  else
    let quiet := if !outIsTerminal then true else opts.quiet
    .ok { quiet := quiet, name := opts.name, refs := opts.refs, direct := opts.direct }

/-- Decidable equality of `Except` results, for concrete evaluations. -/
instance {ε α : Type} [DecidableEq ε] [DecidableEq α] : DecidableEq (Except ε α) :=
  fun a b =>
    match a, b with
    | .error e1, .error e2 =>
      if h : e1 = e2 then .isTrue (by rw [h]) else .isFalse (by intro hh; cases hh; exact h rfl)
    | .error _, .ok _ => .isFalse (by intro hh; cases hh)
    | .ok _, .error _ => .isFalse (by intro hh; cases hh)
    | .ok v1, .ok v2 =>
      if h : v1 = v2 then .isTrue (by rw [h]) else .isFalse (by intro hh; cases hh; exact h rfl)

/-- The compressed blob a save session produces for the layer whose DiffID
is `d` (under a layer store consistent with the image): the gzip of the
layer's tar stream. -/
def gzipTar {δ β : Type} (env : Env δ β) (d : δ) : β :=
  env.gzipStream (env.tarStream { diffID := d })

/-- The layer descriptor a save session records for DiffID `d`. -/
def layerDescOf {δ β : Type} (env : Env δ β) (d : δ) : Descriptor δ :=
  { mediaType := mediaTypeLayer, digest := env.hash (gzipTar env d),
    size := env.blobLen (gzipTar env d) }

/-- The manifest a save session builds for `img`. -/
def manifestOf {δ β : Type} (env : Env δ β) (img : Image δ β) : Manifest δ :=
  { schemaVersion := 2, mediaType := mediaTypeManifest,
    config := { mediaType := mediaTypeConfig, digest := env.hash img.rawJSON,
                size := env.blobLen img.rawJSON },
    layers := img.diffIDs.map (layerDescOf env) }

/-- Every byte string a single-image save session stages: the config JSON,
the compressed layer blobs, and the manifest bytes. -/
def sessionBlobs {δ β : Type} (env : Env δ β) (img : Image δ β) : List β :=
  img.rawJSON :: img.diffIDs.map (gzipTar env) ++ [env.encodeManifest (manifestOf env img)]

/-- Blob-store invariant of a single-image save session: every staged entry
holds one of the session's byte strings at its own digest. -/
def GoodBlobs {δ β : Type} (env : Env δ β) (img : Image δ β) (blobs : List (δ × β)) : Prop :=
  ∀ p ∈ blobs, p.2 ∈ sessionBlobs env img ∧ env.hash p.2 = p.1

/-- Cache invariant of a save session under a consistent layer store: the
`diffIDsCache` maps a DiffID to the digest and size of its compressed
blob. -/
def GoodCache {δ β : Type} [DecidableEq δ] (env : Env δ β) (cache : List (δ × (δ × Int))) : Prop :=
  ∀ d v, alookup d cache = some v → v = (env.hash (gzipTar env d), env.blobLen (gzipTar env d))

/-- Number of occurrences of an emission event in an event log. -/
def countEv {δ : Type} [DecidableEq δ] (e : SaveEvent δ) : List (SaveEvent δ) → Nat
  | [] => 0
  | x :: l => (if x = e then 1 else 0) + countEv e l

/-- Session invariant about layer compression: every DiffID has been
compressed at most once, a compressed DiffID is recorded in
`diffIDsCache`, and the staged blob paths are pairwise distinct. -/
def CompressInv {δ β : Type} [DecidableEq δ] (st : SaveState δ β) : Prop :=
  (∀ d, countEv (SaveEvent.compress d) st.events ≤ 1) ∧
  (∀ d, 1 ≤ countEv (SaveEvent.compress d) st.events → alookup d st.diffIDsCache ≠ none) ∧
  (st.archive.blobs.map Prod.fst).Nodup

/-- Session invariant about per-image staging: every image's config has
been staged at most once, and a staged image is recorded in
`savedImages`. -/
def ConfigInv {δ β : Type} [DecidableEq δ] (st : SaveState δ β) : Prop :=
  (∀ i, countEv (SaveEvent.config i) st.events ≤ 1) ∧
  (∀ i, 1 ≤ countEv (SaveEvent.config i) st.events → alookup i st.savedImages ≠ none)

/-- A concrete manifest used by the concrete evaluations: config digest 1
of size 1, one layer blob of digest 2 and size 1. -/
def M0 : Manifest Nat :=
  { schemaVersion := 2, mediaType := mediaTypeManifest,
    config := { mediaType := mediaTypeConfig, digest := 1, size := 1 },
    layers := [{ mediaType := mediaTypeLayer, digest := 2, size := 1 }] }

/-- A small concrete environment over `δ := Nat`, `β := List Nat` for the
concrete evaluations: image 1 has config `[7]` and one layer of DiffID 5,
image 10 has config `[8]` and one layer of DiffID 6, image 99 has config
`[9]` and no layers; the digests of the byte strings in play are chosen
pairwise distinct. -/
def demoEnv : Env Nat (List Nat) :=
  { hash := fun b =>
      if b = [7] then 1 else if b = [5] then 2 else if b = [42] then 3
      else if b = [8] then 4 else if b = [6] then 5 else if b = [9] then 6 else 0,
    blobLen := fun b => (b.length : Int),
    isGet := fun i =>
      if i = 1 then some { rawJSON := [7], diffIDs := [5] }
      else if i = 10 then some { rawJSON := [8], diffIDs := [6] }
      else if i = 99 then some { rawJSON := [9], diffIDs := [] } else none,
    lsGet := fun c =>
      if c = [5] then some { diffID := 5 } else if c = [6] then some { diffID := 6 } else none,
    tarStream := fun l => [l.diffID],
    gzipStream := fun b => b,
    encodeManifest := fun _ => [42],
    decodeManifest := fun b => if b = [42] then some M0 else none,
    decodeImage := fun b =>
      if b = [7] then some { rawJSON := [7], diffIDs := [5] }
      else if b = [12] then some { rawJSON := [12], diffIDs := [13] } else none,
    hydrate := fun _ b => if b = [50] then some { diffID := 14 } else none,
    digestStr := fun d => "sha256:" ++ toString d,
    hexStr := fun d => toString d }

/-- A concrete OCI archive holding image 1 under the two ref files
`refs/latest` and `refs/other` (the shape `saveAll` produces for one image
saved under two references). -/
def demoNamedArchive : OCIArchive Nat (List Nat) :=
  { blobs := [(1, [7]), (2, [5]), (3, [42])],
    refFiles := [("latest", { mediaType := mediaTypeManifest, digest := 3, size := 1 }),
                 ("other", { mediaType := mediaTypeManifest, digest := 3, size := 1 })] }

/-- A concrete archive whose single layer blob `[50]` hydrates to a layer
of DiffID 14 while the config declares DiffID 13. -/
def demoBadArchive : OCIArchive Nat (List Nat) :=
  { blobs := [(9, [12]), (8, [50])], refFiles := [] }

/-- The manifest of `demoBadArchive`: config digest 9, one layer digest
8. -/
def demoBadManifest : Manifest Nat :=
  { schemaVersion := 2, mediaType := mediaTypeManifest,
    config := { mediaType := mediaTypeConfig, digest := 9, size := 1 },
    layers := [{ mediaType := mediaTypeLayer, digest := 8, size := 1 }] }

/-- A resolved descriptor map of two tagged images, in one iteration
order. -/
def demoImagesAB : List (Nat × List NamedTagged) :=
  [(1, [{ name := "a", tag := "ta" }]), (10, [{ name := "b", tag := "tb" }])]

/-- The same resolved descriptor map in the reverse iteration order. -/
def demoImagesBA : List (Nat × List NamedTagged) :=
  demoImagesAB.reverse

/-- Concrete `docker load` flags: no input file, no `--quiet`. -/
def demoLoadOptions : LoadOptions :=
  { input := "", quiet := false, name := "", refs := [], direct := "" }

theorem alookup_upsert_self {α γ : Type} [DecidableEq α] (k : α) (v : γ) (l : List (α × γ)) :
    alookup k (upsert k v l) = some v := by
  induction l with
  | nil => simp [alookup, upsert]
  | cons hd tl ih =>
    obtain ⟨k', v'⟩ := hd
    by_cases h : k' = k
    · simp [alookup, upsert, h]
    · simp [alookup, upsert, h, ih]

theorem alookup_upsert_ne {α γ : Type} [DecidableEq α] {k k' : α} (v : γ) (l : List (α × γ))
    (h : k' ≠ k) : alookup k' (upsert k v l) = alookup k' l := by
  induction l with
  | nil => simp [alookup, upsert, Ne.symm h]
  | cons hd tl ih =>
    obtain ⟨k0, v0⟩ := hd
    by_cases h0 : k0 = k
    · subst h0
      simp [alookup, upsert, Ne.symm h]
    · simp only [upsert, if_neg h0]
      by_cases h1 : k0 = k'
      · simp [alookup, h1]
      · simp [alookup, h1, ih]

theorem alookup_mem {α γ : Type} [DecidableEq α] {k : α} {v : γ} :
    ∀ {l : List (α × γ)}, alookup k l = some v → (k, v) ∈ l := by
  intro l
  induction l with
  | nil => intro h; simp [alookup] at h
  | cons hd tl ih =>
    obtain ⟨k', v'⟩ := hd
    intro h
    by_cases hk : k' = k
    · subst hk
      simp [alookup] at h
      simp [h]
    · simp [alookup, hk] at h
      exact List.mem_cons_of_mem _ (ih h)

theorem loadManifest_rs {δ β : Type} [DecidableEq δ] (env : Env δ β) (a : OCIArchive δ β)
    (st : LoadState δ β) (m : Manifest δ) :
    ((loadManifest env a st m).1).rs = st.rs := by
  unfold loadManifest isCreate
  repeat' split
  all_goals rfl

theorem loadOCIGo_rs {δ β : Type} [DecidableEq δ] (env : Env δ β) (a : OCIArchive δ β) :
    ∀ (ms : List (String × Manifest δ)) (st : LoadState δ β) (acc : String),
    ((loadOCIGo env a st acc ms).1).rs = st.rs := by
  intro ms
  induction ms with
  | nil => intro st acc; rfl
  | cons hd rest ih =>
    intro st acc
    obtain ⟨name, m⟩ := hd
    have hrs := loadManifest_rs env a st m
    simp only [loadOCIGo]
    cases hlm : loadManifest env a st m with
    | mk st1 res =>
      rw [hlm] at hrs
      cases res with
      | error e => simpa using hrs
      | ok line => simpa [ih st1 (acc ++ line)] using hrs

/-- C1: refuting theorem for the failing behaviour — an OCI load session
never touches the reference store: for every archive, environment and
initial store state, the reference store after `loadOCI` equals the one
before, so no `name:tag → imageID` binding is ever created for the ref
files of the archive (the source drops the ref name with
`TODO(runcom): load tag!!!`). -/
theorem loadOCI_never_binds_refs {δ β : Type} [DecidableEq δ] (env : Env δ β)
    (a : OCIArchive δ β) (st : LoadState δ β) :
    ((loadOCI env a st).1).rs = st.rs := by
  unfold loadOCI
  cases collectManifests env a a.refFiles [] with
  | error e => rfl
  | ok ms => exact loadOCIGo_rs env a ms st ""

theorem checkLayers_ok {δ β : Type} [DecidableEq δ] (env : Env δ β) (a : OCIArchive δ β)
    (m : Manifest δ) :
    ∀ (rest done : List δ) (i : Nat), checkLayers env a m done i rest = .ok () →
    ∀ (j : Nat) (hj : j < rest.length), ∃ l,
      layerAt env a m (done ++ rest.take j) (i + j) (rest.get ⟨j, hj⟩) = .ok l ∧
      l.diffID = rest.get ⟨j, hj⟩ := by
  intro rest
  induction rest with
  | nil => intro done i h j hj; exact absurd hj (by simp)
  | cons d rest' ih =>
    intro done i h j hj
    rw [checkLayers] at h
    cases hres : layerAt env a m done i d with
    | error e => rw [hres] at h; exact absurd h (by simp)
    | ok l =>
      rw [hres] at h
      by_cases heq : l.diffID = d
      · simp only [heq, if_pos rfl] at h
        cases j with
        | zero => exact ⟨l, by simpa using hres, by simpa using heq⟩
        | succ j' =>
          have hj' : j' < rest'.length := Nat.lt_of_succ_lt_succ hj
          obtain ⟨l', hl', hd'⟩ := ih (done ++ [d]) (i + 1) h j' hj'
          refine ⟨l', ?_, by simpa using hd'⟩
          have harr : (done ++ [d]) ++ rest'.take j' = done ++ (d :: rest').take (j' + 1) := by
            simp [List.take_succ_cons]
          have hidx : i + 1 + j' = i + (j' + 1) := by omega
          rw [harr, hidx] at hl'
          simpa using hl'
      · simp [heq] at h

/-- C4: during an OCI load, a manifest whose layer count disagrees with the
config's `RootFS.DiffIDs` count, or for which some obtained layer's DiffID
disagrees with the declared `diffIDs[i]`, makes the per-manifest processing
fail, with the stores exactly as they were — in particular no image is
registered in `IS` for that manifest. -/
theorem loadManifest_validation {δ β : Type} [DecidableEq δ] (env : Env δ β)
    (a : OCIArchive δ β) (st : LoadState δ β) (m : Manifest δ) (config : β)
    (img : Image δ β)
    (hc : alookup m.config.digest a.blobs = some config)
    (hd : env.decodeImage config = some img)
    (hbad : m.layers.length ≠ img.diffIDs.length ∨
      ∃ j, ∃ hj : j < img.diffIDs.length, ∃ l,
        layerAt env a m (img.diffIDs.take j) j (img.diffIDs.get ⟨j, hj⟩) = .ok l ∧
        l.diffID ≠ img.diffIDs.get ⟨j, hj⟩) :
    ∃ e, loadManifest env a st m = (st, .error e) := by
  by_cases hlen : m.layers.length ≠ img.diffIDs.length
  · refine ⟨lenMismatchMsg m.layers.length img.diffIDs.length, ?_⟩
    unfold loadManifest
    simp only [hc, hd]
    rw [if_pos hlen]
  · cases hbad with
    | inl h => exact absurd h hlen
    | inr h =>
      obtain ⟨j, hj, l, hok, hne⟩ := h
      cases hch : checkLayers env a m [] 0 img.diffIDs with
      | ok u =>
        exfalso
        obtain ⟨l', hl', hd'⟩ :=
          checkLayers_ok env a m img.diffIDs [] 0 (by cases u; exact hch) j hj
        rw [List.nil_append, Nat.zero_add] at hl'
        rw [hok] at hl'
        cases hl'
        exact hne hd'
      | error e =>
        refine ⟨e, ?_⟩
        unfold loadManifest
        simp only [hc, hd, hch]
        rw [if_neg hlen]

/-- C9: `ociSaveSession.saveImage` on an image whose `RootFS.DiffIDs` list
is empty (and that was not already saved in this session) fails with the
empty-export error, producing no manifest and no staging output. -/
theorem saveImage_empty_export {δ β : Type} [DecidableEq δ] (env : Env δ β)
    (st : SaveState δ β) (id : δ) (tag : String) (img : Image δ β)
    (hcache : alookup id st.savedImages = none)
    (hget : env.isGet id = some img)
    (hempty : img.diffIDs = []) :
    saveImage env st id tag = .error "empty export - not implemented" := by
  unfold saveImage
  simp [hcache, hget, hempty]

/-- C10: the `docker load` CLI forces quiet mode whenever stdout is not a
terminal; when stdout is a terminal, the request's quiet flag is exactly
the `--quiet` flag. -/
theorem runLoad_quiet (opts : LoadOptions) (outIsTerminal openOk : Bool)
    (r : ImageLoadOptions) (h : runLoad opts outIsTerminal openOk = .ok r) :
    (outIsTerminal = false → r.quiet = true) ∧
    (outIsTerminal = true → r.quiet = opts.quiet) := by
  unfold runLoad at h
  by_cases h1 : opts.direct ≠ "" ∧ opts.input ≠ ""
  · simp [h1] at h
  · rw [if_neg h1] at h
    by_cases h2 : opts.input ≠ "" ∧ ¬openOk
    · simp [h2] at h
    · rw [if_neg h2] at h
      cases outIsTerminal with
      | false =>
        refine ⟨fun _ => ?_, fun hc => absurd hc (by decide)⟩
        cases h
        rfl
      | true =>
        refine ⟨fun hc => absurd hc (by decide), fun _ => ?_⟩
        cases h
        rfl

theorem loadManifest_validation_witness :
    alookup demoBadManifest.config.digest demoBadArchive.blobs = some [12] ∧
    demoEnv.decodeImage [12] = some { rawJSON := [12], diffIDs := [13] } ∧
    ∃ e, loadManifest demoEnv demoBadArchive { is := [], rs := [] } demoBadManifest =
      ({ is := [], rs := [] }, .error e) :=
  ⟨rfl, rfl,
    loadManifest_validation demoEnv demoBadArchive { is := [], rs := [] } demoBadManifest
      [12] { rawJSON := [12], diffIDs := [13] } rfl rfl
      (Or.inr ⟨0, by decide, { diffID := 14 }, rfl, by decide⟩)⟩

theorem saveImage_empty_export_witness :
    alookup 99 (emptySaveState : SaveState Nat (List Nat)).savedImages = none ∧
    demoEnv.isGet 99 = some { rawJSON := [9], diffIDs := [] } ∧
    saveImage demoEnv emptySaveState 99 "t" = .error "empty export - not implemented" :=
  ⟨rfl, rfl,
    saveImage_empty_export demoEnv emptySaveState 99 "t" { rawJSON := [9], diffIDs := [] }
      rfl rfl rfl⟩

theorem runLoad_quiet_witness :
    runLoad demoLoadOptions false true =
      .ok { quiet := true, name := "", refs := [], direct := "" } ∧
    ((false = false →
        (({ quiet := true, name := "", refs := [], direct := "" } : ImageLoadOptions)).quiet = true) ∧
     (false = true →
        (({ quiet := true, name := "", refs := [], direct := "" } : ImageLoadOptions)).quiet =
          demoLoadOptions.quiet)) :=
  ⟨rfl, runLoad_quiet demoLoadOptions false true
    { quiet := true, name := "", refs := [], direct := "" } rfl⟩

theorem getRefsAux_ok (l : List (Ref × String))
    (h : ∀ p ∈ l, isCanonical p.1 = false → ociRefMatch p.2 = true) :
    ∀ acc, ∃ m, getRefsAux acc l = .ok m := by
  induction l with
  | nil => intro acc; exact ⟨acc, rfl⟩
  | cons hd tl ih =>
    intro acc
    obtain ⟨k, ref⟩ := hd
    have htl : ∀ p ∈ tl, isCanonical p.1 = false → ociRefMatch p.2 = true :=
      fun p hp => h p (List.mem_cons_of_mem _ hp)
    cases k with
    | canonical n d => exact ih htl _
    | nameOnly n =>
      have hm : ociRefMatch ref = true := h (.nameOnly n, ref) (List.mem_cons_self _ _) rfl
      simpa [getRefsAux, hm] using ih htl (upsert (ntString (normalizeRef (.nameOnly n))) ref acc)
    | tagged nt =>
      have hm : ociRefMatch ref = true := h (.tagged nt, ref) (List.mem_cons_self _ _) rfl
      simpa [getRefsAux, hm] using ih htl (upsert (ntString (normalizeRef (.tagged nt))) ref acc)

theorem getRefsAux_err (l : List (Ref × String)) (k0 : Ref) (ref0 : String)
    (hmem : (k0, ref0) ∈ l) (hnc : isCanonical k0 = false)
    (hbadref : ociRefMatch ref0 = false) :
    ∃ k r, (k, r) ∈ l ∧ isCanonical k = false ∧ ociRefMatch r = false ∧
      ∀ acc, getRefsAux acc l = .error (invalidRefMsg (refKeyString k) r) := by
  induction l with
  | nil => cases hmem
  | cons hd tl ih =>
    obtain ⟨k, ref⟩ := hd
    rcases List.mem_cons.mp hmem with hhd | htl
    · cases hhd
      cases k0 with
      | canonical n d => simp [isCanonical] at hnc
      | nameOnly n =>
        refine ⟨.nameOnly n, ref0, List.mem_cons_self _ _, hnc, hbadref, ?_⟩
        intro acc
        simp [getRefsAux, hbadref]
      | tagged nt =>
        refine ⟨.tagged nt, ref0, List.mem_cons_self _ _, hnc, hbadref, ?_⟩
        intro acc
        simp [getRefsAux, hbadref]
    · obtain ⟨k1, r1, hm1, hnc1, hb1, hall⟩ := ih htl
      cases k with
      | canonical n d =>
        refine ⟨k1, r1, List.mem_cons_of_mem _ hm1, hnc1, hb1, ?_⟩
        intro acc
        simpa [getRefsAux] using hall acc
      | nameOnly n =>
        by_cases hm : ociRefMatch ref = true
        · refine ⟨k1, r1, List.mem_cons_of_mem _ hm1, hnc1, hb1, ?_⟩
          intro acc
          simpa [getRefsAux, hm] using hall (upsert (ntString (normalizeRef (Ref.nameOnly n))) ref acc)
        · replace hm : ociRefMatch ref = false := by simpa using hm
          refine ⟨.nameOnly n, ref, List.mem_cons_self _ _, rfl, hm, ?_⟩
          intro acc
          simp [getRefsAux, hm]
      | tagged nt =>
        by_cases hm : ociRefMatch ref = true
        · refine ⟨k1, r1, List.mem_cons_of_mem _ hm1, hnc1, hb1, ?_⟩
          intro acc
          simpa [getRefsAux, hm] using hall (upsert (ntString (normalizeRef (Ref.tagged nt))) ref acc)
        · replace hm : ociRefMatch ref = false := by simpa using hm
          refine ⟨.tagged nt, ref, List.mem_cons_self _ _, rfl, hm, ?_⟩
          intro acc
          simp [getRefsAux, hm]

/-- C8: counterexample — a `--ref` override entry keyed by a canonical
(digest) reference is skipped by `getRefs` before the character-class
check, so an override tag far outside `[A-Za-z0-9._-]` passes and the OCI
save pipeline proceeds without any error, contradicting the claim that
every such entry makes the save fail. -/
theorem ociSaveTop_canonical_override_skips_validation :
    ociSaveTop demoEnv [(Ref.canonical "busybox" "sha256:deadbeef", "bad:tag")]
      ([] : List (Nat × Option Ref)) = .ok emptySaveState :=
  rfl

/-- C8 (amended): if some `--ref` override entry keyed by a non-digest
reference has an override value outside `^[A-Za-z0-9._-]+$`, the OCI save
pipeline fails before staging anything, with the error naming that
offending `name=ref` pair; entries keyed by a canonical (digest) reference
are skipped without validation; and if every non-canonical entry's value
matches the class, `getRefs` accepts the override map. -/
theorem getRefs_override_validation (overrides : List (Ref × String)) :
    ((∃ p ∈ overrides, isCanonical p.1 = false ∧ ociRefMatch p.2 = false) →
      ∃ k r, (k, r) ∈ overrides ∧ isCanonical k = false ∧ ociRefMatch r = false ∧
        getRefs overrides = .error (invalidRefMsg (refKeyString k) r) ∧
        ∀ (δ β : Type) [DecidableEq δ] (env : Env δ β) (entries : List (δ × Option Ref)),
          ociSaveTop env overrides entries = .error (invalidRefMsg (refKeyString k) r))
    ∧ ((∀ p ∈ overrides, isCanonical p.1 = false → ociRefMatch p.2 = true) →
      ∃ m, getRefs overrides = .ok m) := by
  constructor
  · rintro ⟨p, hp, hnc, hbad⟩
    obtain ⟨k, r, hm, hnc', hb', hall⟩ := getRefsAux_err overrides p.1 p.2 (by simpa using hp) hnc hbad
    refine ⟨k, r, hm, hnc', hb', hall [], ?_⟩
    intro δ β idec env entries
    unfold ociSaveTop
    simp [getRefs, hall []]
  · intro h
    exact getRefsAux_ok overrides h []

theorem getRefs_override_validation_witness :
    ∃ k r, (k, r) ∈ [((Ref.nameOnly "busybox" : Ref), "invalid:reference")] ∧
      isCanonical k = false ∧ ociRefMatch r = false ∧
      getRefs [((Ref.nameOnly "busybox" : Ref), "invalid:reference")] =
        .error (invalidRefMsg (refKeyString k) r) ∧
      ∀ (δ β : Type) [DecidableEq δ] (env : Env δ β) (entries : List (δ × Option Ref)),
        ociSaveTop env [((Ref.nameOnly "busybox" : Ref), "invalid:reference")] entries =
          .error (invalidRefMsg (refKeyString k) r) :=
  (getRefs_override_validation [((Ref.nameOnly "busybox" : Ref), "invalid:reference")]).1
    ⟨(Ref.nameOnly "busybox", "invalid:reference"), by decide, rfl, by decide⟩

/-- C5: refuting evaluation — on an OCI archive whose one image is named by
the two ref files `refs/latest` and `refs/other`, a successful load writes
two `Loaded image ID:` lines for that single image and no
`Loaded image: <name>:<tag>` line at all (`imageRefCount` is hardcoded to
zero and the ref names are dropped), contradicting the claimed
one-line-per-image output with `Loaded image:` lines for named images. -/
theorem loadOCI_progress_lines_flaw :
    loadOCI demoEnv demoNamedArchive { is := [], rs := [] } =
      ({ is := [(1, [7])], rs := [] },
        .ok "Loaded image ID: sha256:1\nLoaded image ID: sha256:1\n") ∧
    ¬ List.IsInfix "Loaded image: ".toList
        "Loaded image ID: sha256:1\nLoaded image ID: sha256:1\n".toList :=
  ⟨rfl, by decide⟩

/-- C6: refuting evaluation — the emission order of an OCI save session
follows the iteration order of the resolved image map: the same resolved
set presented in two iteration orders (a permutation, as Go map range
randomization may produce) yields two different emission sequences, so the
session does not emit images in a sorted, randomization-independent
order. -/
theorem save_emission_order_not_canonical :
    demoImagesBA.Perm demoImagesAB ∧
    (saveAll demoEnv emptySaveState demoImagesAB).map SaveState.events ≠
      (saveAll demoEnv emptySaveState demoImagesBA).map SaveState.events :=
  ⟨List.reverse_perm demoImagesAB, by decide⟩

theorem countEv_append {δ : Type} [DecidableEq δ] (e : SaveEvent δ) (l1 l2 : List (SaveEvent δ)) :
    countEv e (l1 ++ l2) = countEv e l1 + countEv e l2 := by
  induction l1 with
  | nil => simp [countEv]
  | cons x l ih => simp [countEv, ih, Nat.add_assoc]

theorem countEv_snoc {δ : Type} [DecidableEq δ] (e x : SaveEvent δ) (l : List (SaveEvent δ)) :
    countEv e (l ++ [x]) = countEv e l + (if x = e then 1 else 0) := by
  rw [countEv_append]
  simp [countEv]

theorem upsert_keys_mem {α γ : Type} [DecidableEq α] (k : α) (v : γ) (l : List (α × γ)) :
    ∀ x ∈ (upsert k v l).map Prod.fst, x = k ∨ x ∈ l.map Prod.fst := by
  induction l with
  | nil =>
    intro x hx
    simp [upsert] at hx
    exact Or.inl hx
  | cons hd tl ih =>
    obtain ⟨k0, v0⟩ := hd
    intro x hx
    by_cases h0 : k0 = k
    · have hup : upsert k v ((k0, v0) :: tl) = (k, v) :: tl := by simp [upsert, h0]
      rw [hup, List.map_cons, List.mem_cons] at hx
      rcases hx with h | h
      · exact Or.inl h
      · exact Or.inr (List.mem_cons_of_mem _ h)
    · have hup : upsert k v ((k0, v0) :: tl) = (k0, v0) :: upsert k v tl := by
        simp [upsert, h0]
      rw [hup, List.map_cons, List.mem_cons] at hx
      rcases hx with h | h
      · exact Or.inr (by simp [h])
      · rcases ih x h with h' | h'
        · exact Or.inl h'
        · exact Or.inr (List.mem_cons_of_mem _ h')

theorem upsert_keys_nodup {α γ : Type} [DecidableEq α] (k : α) (v : γ) (l : List (α × γ))
    (h : (l.map Prod.fst).Nodup) : ((upsert k v l).map Prod.fst).Nodup := by
  induction l with
  | nil => simp [upsert]
  | cons hd tl ih =>
    obtain ⟨k0, v0⟩ := hd
    simp only [List.map_cons, List.nodup_cons] at h
    obtain ⟨hk0, htl⟩ := h
    by_cases h0 : k0 = k
    · have hup : upsert k v ((k0, v0) :: tl) = (k, v) :: tl := by simp [upsert, h0]
      rw [hup, List.map_cons, List.nodup_cons]
      refine ⟨?_, htl⟩
      rw [← h0]
      exact hk0
    · have hup : upsert k v ((k0, v0) :: tl) = (k0, v0) :: upsert k v tl := by
        simp [upsert, h0]
      rw [hup, List.map_cons, List.nodup_cons]
      refine ⟨?_, ih htl⟩
      intro hx
      rcases upsert_keys_mem k v tl k0 hx with h' | h'
      · exact h0 h'
      · exact hk0 h'

theorem alookup_upsert_pres {α γ : Type} [DecidableEq α] {k' : α} (k : α) (v : γ)
    (l : List (α × γ)) (h : alookup k' l ≠ none) : alookup k' (upsert k v l) ≠ none := by
  by_cases hk : k' = k
  · subst hk
    rw [alookup_upsert_self]
    simp
  · rw [alookup_upsert_ne v l hk]
    exact h

theorem saveLayers_inv {δ β : Type} [DecidableEq δ] (env : Env δ β) :
    ∀ (rest done : List δ) (st : SaveState δ β) (m : Manifest δ) (st' : SaveState δ β)
      (m' : Manifest δ),
    saveLayers env st m done rest = .ok (st', m') → CompressInv st →
    CompressInv st' ∧ st'.savedImages = st.savedImages ∧
      (∀ i, countEv (SaveEvent.config i) st'.events = countEv (SaveEvent.config i) st.events) := by
  intro rest
  induction rest with
  | nil =>
    intro done st m st' m' h hc
    simp only [saveLayers] at h
    cases h
    exact ⟨hc, rfl, fun i => rfl⟩
  | cons d rest' ih =>
    intro done st m st' m' h hc
    simp only [saveLayers] at h
    cases hls : env.lsGet (done ++ [d]) with
    | none =>
      simp only [hls] at h
      exact Except.noConfusion h
    | some l =>
      simp only [hls] at h
      cases hcac : alookup l.diffID st.diffIDsCache with
      | some p =>
        obtain ⟨dg, sz⟩ := p
        simp only [hcac] at h
        exact ih (done ++ [d]) st _ st' m' h hc
      | none =>
        simp only [hcac] at h
        obtain ⟨hc1, hc2, hc3⟩ := hc
        have hcnt0 : countEv (SaveEvent.compress l.diffID) st.events = 0 := by
          by_contra hne
          exact hc2 l.diffID (Nat.one_le_iff_ne_zero.mpr hne) hcac
        have hinv1 : CompressInv
            ({ st with
                archive := (putBlob env st.archive (env.gzipStream (env.tarStream l))).1,
                diffIDsCache := upsert l.diffID
                  ((putBlob env st.archive (env.gzipStream (env.tarStream l))).2.1,
                   (putBlob env st.archive (env.gzipStream (env.tarStream l))).2.2)
                  st.diffIDsCache,
                events := st.events ++ [SaveEvent.compress l.diffID] } : SaveState δ β) := by
          refine ⟨?_, ?_, ?_⟩
          · intro d'
            dsimp only
            rw [countEv_snoc]
            by_cases hd' : l.diffID = d'
            · subst hd'
              rw [if_pos rfl, hcnt0]
            · rw [if_neg (by simpa using hd'), Nat.add_zero]
              exact hc1 d'
          · intro d' hge
            dsimp only at hge ⊢
            by_cases hd' : d' = l.diffID
            · subst hd'
              rw [alookup_upsert_self]
              simp
            · rw [countEv_snoc, if_neg (by simpa using Ne.symm hd'), Nat.add_zero] at hge
              exact alookup_upsert_pres _ _ _ (hc2 d' hge)
          · dsimp only [putBlob]
            exact upsert_keys_nodup _ _ _ hc3
        obtain ⟨hinv', hsaved, hcfg⟩ := ih (done ++ [d]) _ _ st' m' h hinv1
        refine ⟨hinv', hsaved, ?_⟩
        intro i
        rw [hcfg i]
        dsimp only
        rw [countEv_snoc, if_neg (by simp), Nat.add_zero]

theorem saveImage_inv {δ β : Type} [DecidableEq δ] (env : Env δ β) (st : SaveState δ β)
    (id : δ) (tag : String) (st' : SaveState δ β)
    (h : saveImage env st id tag = .ok st') (hc : CompressInv st) (hg : ConfigInv st) :
    CompressInv st' ∧ ConfigInv st' := by
  unfold saveImage at h
  cases hcache : alookup id st.savedImages with
  | some mm =>
    simp only [hcache] at h
    cases h
    obtain ⟨hc1, hc2, hc3⟩ := hc
    obtain ⟨hg1, hg2⟩ := hg
    refine ⟨⟨?_, ?_, ?_⟩, ?_, ?_⟩
    · intro d'
      dsimp only
      rw [countEv_snoc, if_neg (by simp), Nat.add_zero]
      exact hc1 d'
    · intro d' hge
      dsimp only at hge ⊢
      rw [countEv_snoc, if_neg (by simp), Nat.add_zero] at hge
      exact hc2 d' hge
    · dsimp only [putManifest]
      exact upsert_keys_nodup _ _ _ hc3
    · intro i
      dsimp only
      rw [countEv_snoc, if_neg (by simp), Nat.add_zero]
      exact hg1 i
    · intro i hge
      dsimp only at hge ⊢
      rw [countEv_snoc, if_neg (by simp), Nat.add_zero] at hge
      exact hg2 i hge
  | none =>
    simp only [hcache] at h
    cases hget : env.isGet id with
    | none =>
      simp only [hget] at h
      exact Except.noConfusion h
    | some img =>
      simp only [hget] at h
      by_cases hemp : img.diffIDs.isEmpty = true
      · rw [if_pos hemp] at h
        exact Except.noConfusion h
      · rw [if_neg hemp] at h
        obtain ⟨hc1, hc2, hc3⟩ := hc
        obtain ⟨hg1, hg2⟩ := hg
        have hcfg0 : countEv (SaveEvent.config id) st.events = 0 := by
          by_contra hne
          exact hg2 id (Nat.one_le_iff_ne_zero.mpr hne) hcache
        have hinv1 : CompressInv
            ({ st with
                archive := (putBlob env st.archive img.rawJSON).1,
                events := st.events ++ [SaveEvent.config id] } : SaveState δ β) := by
          refine ⟨?_, ?_, ?_⟩
          · intro d'
            dsimp only
            rw [countEv_snoc, if_neg (by simp), Nat.add_zero]
            exact hc1 d'
          · intro d' hge
            dsimp only at hge ⊢
            rw [countEv_snoc, if_neg (by simp), Nat.add_zero] at hge
            exact hc2 d' hge
          · dsimp only [putBlob]
            exact upsert_keys_nodup _ _ _ hc3
        cases hsl : saveLayers env
            ({ st with
                archive := (putBlob env st.archive img.rawJSON).1,
                events := st.events ++ [SaveEvent.config id] } : SaveState δ β)
            { schemaVersion := 2, mediaType := mediaTypeManifest,
              config := { mediaType := mediaTypeConfig,
                          digest := (putBlob env st.archive img.rawJSON).2.1,
                          size := (putBlob env st.archive img.rawJSON).2.2 },
              layers := [] } [] img.diffIDs with
        | error e =>
          rw [hsl] at h
          exact Except.noConfusion h
        | ok r =>
          obtain ⟨st2, m2⟩ := r
          rw [hsl] at h
          cases h
          obtain ⟨⟨hd1, hd2, hd3⟩, hsaved, hcfgeq⟩ :=
            saveLayers_inv env img.diffIDs [] _ _ st2 m2 hsl hinv1
          have hsaved' : st2.savedImages = st.savedImages := hsaved
          have hcfg2 : ∀ i, countEv (SaveEvent.config i) st2.events =
              countEv (SaveEvent.config i) st.events + (if i = id then 1 else 0) := by
            intro i
            rw [hcfgeq i]
            dsimp only
            rw [countEv_snoc]
            by_cases hi : i = id
            · subst hi
              rw [if_pos rfl, if_pos rfl]
            · rw [if_neg (by simpa using fun hh => hi hh.symm), if_neg hi]
          refine ⟨⟨?_, ?_, ?_⟩, ?_, ?_⟩
          · intro d'
            dsimp only
            rw [countEv_snoc, if_neg (by simp), Nat.add_zero]
            exact hd1 d'
          · intro d' hge
            dsimp only at hge ⊢
            rw [countEv_snoc, if_neg (by simp), Nat.add_zero] at hge
            exact hd2 d' hge
          · dsimp only [putManifest]
            exact upsert_keys_nodup _ _ _ hd3
          · intro i
            dsimp only
            rw [countEv_snoc, if_neg (by simp), Nat.add_zero, hcfg2 i]
            by_cases hi : i = id
            · subst hi
              rw [if_pos rfl, hcfg0]
            · rw [if_neg hi, Nat.add_zero]
              exact hg1 i
          · intro i hge
            dsimp only at hge ⊢
            by_cases hi : i = id
            · subst hi
              rw [alookup_upsert_self]
              simp
            · rw [countEv_snoc, if_neg (by simp), Nat.add_zero, hcfg2 i,
                if_neg hi, Nat.add_zero] at hge
              have hnn : alookup i st.savedImages ≠ none := hg2 i hge
              rw [← hsaved'] at hnn
              exact alookup_upsert_pres _ _ _ hnn

theorem saveRefs_inv {δ β : Type} [DecidableEq δ] (env : Env δ β) (id : δ) :
    ∀ (refs : List NamedTagged) (st st' : SaveState δ β),
    saveRefs env st id refs = .ok st' → CompressInv st → ConfigInv st →
    CompressInv st' ∧ ConfigInv st' := by
  intro refs
  induction refs with
  | nil =>
    intro st st' h hc hg
    cases h
    exact ⟨hc, hg⟩
  | cons r rest ih =>
    intro st st' h hc hg
    simp only [saveRefs] at h
    cases hsi : saveImage env st id r.tag with
    | error e =>
      simp only [hsi] at h
      exact Except.noConfusion h
    | ok st1 =>
      simp only [hsi] at h
      obtain ⟨hc1, hg1⟩ := saveImage_inv env st id r.tag st1 hsi hc hg
      exact ih st1 st' h hc1 hg1

theorem saveAll_inv {δ β : Type} [DecidableEq δ] (env : Env δ β) :
    ∀ (images : List (δ × List NamedTagged)) (st st' : SaveState δ β),
    saveAll env st images = .ok st' → CompressInv st → ConfigInv st →
    CompressInv st' ∧ ConfigInv st' := by
  intro images
  induction images with
  | nil =>
    intro st st' h hc hg
    cases h
    exact ⟨hc, hg⟩
  | cons p rest ih =>
    intro st st' h hc hg
    obtain ⟨id, refs⟩ := p
    simp only [saveAll] at h
    cases hsr : saveRefs env st id refs with
    | error e =>
      simp only [hsr] at h
      exact Except.noConfusion h
    | ok st1 =>
      simp only [hsr] at h
      obtain ⟨hc1, hg1⟩ := saveRefs_inv env id refs st st1 hsr hc hg
      by_cases hre : refs.isEmpty = true
      · rw [if_pos hre] at h
        cases hsi : saveImage env st1 id (env.hexStr id) with
        | error e =>
          simp only [hsi] at h
          exact Except.noConfusion h
        | ok st2 =>
          simp only [hsi] at h
          obtain ⟨hc2, hg2⟩ := saveImage_inv env st1 id (env.hexStr id) st2 hsi hc1 hg1
          exact ih st2 st' h hc2 hg2
      · rw [if_neg hre] at h
        exact ih st1 st' h hc1 hg1

/-- C7: in every successful OCI save session, each DiffID is gzip-compressed
at most once (later occurrences reuse the cached blob digest and size), each
image's config/layers are staged at most once (later references of an
already-saved image only add a ref entry), and the staged blob paths of the
archive are pairwise distinct, so every staged blob occurs in the archive
exactly once. -/
theorem saveAll_blobs_once {δ β : Type} [DecidableEq δ] (env : Env δ β)
    (images : List (δ × List NamedTagged)) (st' : SaveState δ β)
    (h : saveAll env emptySaveState images = .ok st') :
    (∀ d, countEv (SaveEvent.compress d) st'.events ≤ 1) ∧
    (∀ i, countEv (SaveEvent.config i) st'.events ≤ 1) ∧
    (st'.archive.blobs.map Prod.fst).Nodup := by
  have h0c : CompressInv (emptySaveState : SaveState δ β) := by
    refine ⟨?_, ?_, ?_⟩
    · intro d; simp [emptySaveState, countEv]
    · intro d hge; simp [emptySaveState, countEv] at hge
    · simp [emptySaveState]
  have h0g : ConfigInv (emptySaveState : SaveState δ β) := by
    refine ⟨?_, ?_⟩
    · intro i; simp [emptySaveState, countEv]
    · intro i hge; simp [emptySaveState, countEv] at hge
  obtain ⟨⟨hc1, _, hc3⟩, hg1, _⟩ := saveAll_inv env images emptySaveState st' h h0c h0g
  exact ⟨hc1, hg1, hc3⟩

theorem saveAll_blobs_once_witness :
    saveAll demoEnv emptySaveState
        [(1, [{ name := "busybox", tag := "latest" }, { name := "busybox2", tag := "other" }])] =
      .ok
        { archive :=
            { blobs := [(1, [7]), (2, [5]), (3, [42])],
              refFiles :=
                [("latest", { mediaType := mediaTypeManifest, digest := 3, size := 1 }),
                 ("other", { mediaType := mediaTypeManifest, digest := 3, size := 1 })] },
          savedImages := [(1, [42])],
          diffIDsCache := [(5, (2, 1))],
          events := [SaveEvent.config 1, SaveEvent.compress 5, SaveEvent.manifest "latest",
                     SaveEvent.manifest "other"] } ∧
    ((∀ d, countEv (SaveEvent.compress d)
        [SaveEvent.config 1, SaveEvent.compress 5, SaveEvent.manifest "latest",
         SaveEvent.manifest "other"] ≤ 1) ∧
     (∀ i, countEv (SaveEvent.config i)
        [SaveEvent.config 1, SaveEvent.compress 5, SaveEvent.manifest "latest",
         SaveEvent.manifest "other"] ≤ 1) ∧
     (([(1, [7]), (2, [5]), (3, [42])].map Prod.fst : List Nat)).Nodup) := by
  constructor
  · rfl
  · exact saveAll_blobs_once demoEnv
      [(1, [{ name := "busybox", tag := "latest" }, { name := "busybox2", tag := "other" }])]
      _ rfl

theorem sep_split (t1 t2 : List Char) (h1 : ':' ∉ t1) (h2 : ':' ∉ t2) :
    ∀ n1 n2 : List Char, n1 ++ ':' :: t1 = n2 ++ ':' :: t2 → n1 = n2 ∧ t1 = t2 := by
  intro n1
  induction n1 with
  | nil =>
    intro n2 h
    cases n2 with
    | nil =>
      simp only [List.nil_append, List.cons.injEq] at h
      exact ⟨rfl, h.2⟩
    | cons c n2' =>
      simp only [List.nil_append, List.cons_append, List.cons.injEq] at h
      exfalso
      apply h1
      rw [h.2]
      exact List.mem_append_right _ (List.mem_cons_self _ _)
  | cons c n1' ih =>
    intro n2 h
    cases n2 with
    | nil =>
      simp only [List.cons_append, List.nil_append, List.cons.injEq] at h
      exfalso
      apply h2
      rw [← h.2]
      exact List.mem_append_right _ (List.mem_cons_self _ _)
    | cons c2 n2' =>
      simp only [List.cons_append, List.cons.injEq] at h
      obtain ⟨hc, ht⟩ := h
      obtain ⟨hn, htt⟩ := ih n2' ht
      exact ⟨by rw [hc, hn], htt⟩

theorem colonFree_notMem {s : String} (h : colonFree s = true) : ':' ∉ s.data := by
  intro hm
  have hall := List.all_eq_true.mp h
  have hx := hall ':' hm
  simp at hx

theorem ntString_inj {a b : NamedTagged} (ha : colonFree a.tag = true)
    (hb : colonFree b.tag = true) (h : ntString a = ntString b) : a = b := by
  obtain ⟨na, ta⟩ := a
  obtain ⟨nb, tb⟩ := b
  have hd := congrArg String.data h
  unfold ntString at hd
  rw [String.data_append, String.data_append, String.data_append, String.data_append] at hd
  have hcolon : (":" : String).data = [':'] := rfl
  rw [hcolon, List.append_assoc, List.append_assoc, List.singleton_append,
    List.singleton_append] at hd
  obtain ⟨hn, ht⟩ := sep_split _ _ (colonFree_notMem ha) (colonFree_notMem hb) _ _ hd
  have e1 : na = nb := String.ext hn
  have e2 : ta = tb := String.ext ht
  rw [e1, e2]

theorem tagChar_ne_colon {c : Char}
    (h : (c.isAlpha || c.isDigit || c = '_' || c = '.' || c = '-') = true) :
    decide (c ≠ ':') = true := by
  by_cases hc : c = ':'
  · subst hc
    exact absurd h (by decide)
  · simp [hc]

theorem validTag_colonFree {s : String} (h : validTag s = true) : colonFree s = true := by
  unfold validTag at h
  unfold colonFree
  cases hs : s.toList with
  | nil =>
    simp only [hs] at h
    exact absurd h (by decide)
  | cons c rest =>
    simp only [hs] at h
    rw [List.all_cons]
    simp only [Bool.and_eq_true] at h
    obtain ⟨⟨h1, _⟩, h3⟩ := h
    rw [Bool.and_eq_true]
    constructor
    · apply tagChar_ne_colon
      rw [Bool.or_eq_true, Bool.or_eq_true]
      exact Or.inl (Or.inl h1)
    · rw [List.all_eq_true] at h3 ⊢
      intro x hx
      exact tagChar_ne_colon (h3 x hx)

theorem refsOf_ensure {δ : Type} [DecidableEq δ] (st : AssocState δ) (id id' : δ) :
    refsOf { st with imgDescr := ensureDescr id st.imgDescr } id' = refsOf st id' := by
  unfold refsOf ensureDescr
  dsimp only
  cases h : alookup id st.imgDescr with
  | some v => rfl
  | none =>
    by_cases hi : id' = id
    · subst hi
      rw [alookup_upsert_self, h]
      rfl
    · rw [alookup_upsert_ne _ _ hi]

theorem mem_refsOf_append {δ : Type} [DecidableEq δ] (m : List (δ × List NamedTagged))
    (id : δ) (tg : NamedTagged) (id0 : δ) (nt : NamedTagged) :
    nt ∈ (alookup id0 (appendRef id tg m)).getD [] ↔
      nt ∈ (alookup id0 m).getD [] ∨ (id0 = id ∧ nt = tg) := by
  unfold appendRef
  by_cases hi : id0 = id
  · subst hi
    rw [alookup_upsert_self]
    simp [List.mem_append]
  · rw [alookup_upsert_ne _ _ hi]
    simp [hi]

theorem withOverride_ok {refs : List (String × String)} {tagged : NamedTagged}
    (hv : ∀ p ∈ refs, validTag p.2 = true) :
    withOverride refs tagged = .ok (overriddenNT refs tagged) := by
  unfold withOverride overriddenNT
  cases halo : alookup (ntString tagged) refs with
  | some o =>
    have hvo : validTag o = true := hv (ntString tagged, o) (alookup_mem halo)
    simp [hvo]
  | none => rfl

theorem withOverride_error {refs : List (String × String)} {tagged : NamedTagged} {e : String}
    (h : withOverride refs tagged = .error e) :
    ∃ k o, alookup k refs = some o ∧ validTag o = false ∧ e = invalidTagMsg o := by
  unfold withOverride at h
  cases halo : alookup (ntString tagged) refs with
  | some o =>
    simp only [halo] at h
    by_cases hvo : validTag o = true
    · rw [if_pos hvo] at h
      exact Except.noConfusion h
    · rw [if_neg hvo] at h
      cases h
      exact ⟨ntString tagged, o, halo, by simpa using hvo, rfl⟩
  | none =>
    simp only [halo] at h
    exact Except.noConfusion h

theorem overriddenNT_cfree {refs : List (String × String)} {tagged : NamedTagged}
    (hv : ∀ p ∈ refs, validTag p.2 = true) (hcf : colonFree tagged.tag = true) :
    colonFree (overriddenNT refs tagged).tag = true := by
  unfold overriddenNT
  cases halo : alookup (ntString tagged) refs with
  | some o =>
    have hvo : validTag o = true := hv (ntString tagged, o) (alookup_mem halo)
    exact validTag_colonFree hvo
  | none => exact hcf

theorem addAssocCore_ok_spec {δ : Type} [DecidableEq δ] (st : AssocState δ) (id : δ)
    (tg : NamedTagged) (st' : AssocState δ)
    (hcf' : colonFree tg.tag = true)
    (hinv : AInv st)
    (h : addAssocCore st id tg = .ok st') :
    tg ∈ refsOf st' id ∧ AInv st' ∧
      (∀ id0 nt, nt ∈ refsOf st id0 → nt ∈ refsOf st' id0) := by
  unfold addAssocCore at h
  by_cases hdup : (refsOf st id).any (fun t => ntString tg = ntString t) = true
  · rw [if_pos hdup] at h
    cases h
    obtain ⟨t, htmem, hts⟩ := List.any_eq_true.mp hdup
    have hts' : ntString tg = ntString t := of_decide_eq_true hts
    have heqt : tg = t := ntString_inj hcf' ((hinv.1 id t htmem).2) hts'
    refine ⟨?_, hinv, fun _ _ hm => hm⟩
    rw [heqt]
    exact htmem
  · rw [if_neg hdup] at h
    by_cases hmemt : tg.tag ∈ st.tags
    · rw [if_pos hmemt] at h
      exact Except.noConfusion h
    · rw [if_neg hmemt] at h
      cases h
      obtain ⟨hinv1, hinv2⟩ := hinv
      have hmemiff : ∀ id0 nt,
          nt ∈ refsOf ({ imgDescr := appendRef id tg st.imgDescr, tags := tg.tag :: st.tags } :
            AssocState δ) id0 ↔
            nt ∈ refsOf st id0 ∨ (id0 = id ∧ nt = tg) := by
        intro id0 nt
        exact mem_refsOf_append st.imgDescr id _ id0 nt
      refine ⟨?_, ⟨?_, ?_⟩, ?_⟩
      · rw [hmemiff]
        exact Or.inr ⟨rfl, rfl⟩
      · intro id0 nt hm
        rw [hmemiff] at hm
        rcases hm with hm | ⟨_, rfl⟩
        · obtain ⟨ht1, ht2⟩ := hinv1 id0 nt hm
          exact ⟨List.mem_cons_of_mem _ ht1, ht2⟩
        · exact ⟨List.mem_cons_self _ _, hcf'⟩
      · intro ida idb nt1 nt2 hm1 hm2 htags
        rw [hmemiff] at hm1 hm2
        rcases hm1 with hm1 | ⟨_, rfl⟩ <;> rcases hm2 with hm2 | ⟨_, rfl⟩
        · exact hinv2 ida idb nt1 nt2 hm1 hm2 htags
        · exfalso
          apply hmemt
          rw [← htags]
          exact (hinv1 ida nt1 hm1).1
        · exfalso
          apply hmemt
          rw [htags]
          exact (hinv1 idb nt2 hm2).1
        · rfl
      · intro id0 nt hm
        rw [hmemiff]
        exact Or.inl hm

theorem addAssocRef_ok_spec {δ : Type} [DecidableEq δ] (refs : List (String × String))
    (st : AssocState δ) (id : δ) (r : Ref) (st' : AssocState δ)
    (hv : ∀ p ∈ refs, validTag p.2 = true)
    (hcf : colonFree (normalizeRef r).tag = true)
    (hinv : AInv st)
    (h : addAssocRef refs st id r = .ok st') :
    overriddenRef refs r ∈ refsOf st' id ∧ AInv st' ∧
      (∀ id0 nt, nt ∈ refsOf st id0 → nt ∈ refsOf st' id0) := by
  unfold addAssocRef at h
  rw [withOverride_ok hv] at h
  have h' : addAssocCore st id (overriddenRef refs r) = .ok st' := h
  exact addAssocCore_ok_spec st id _ st' (overriddenNT_cfree hv hcf) hinv h'

theorem addAssoc_ok_spec {δ : Type} [DecidableEq δ] (refs : List (String × String))
    (st : AssocState δ) (id : δ) (oref : Option Ref) (st' : AssocState δ)
    (hv : ∀ p ∈ refs, validTag p.2 = true)
    (hcf : ∀ r, oref = some r → isCanonical r = false → colonFree (normalizeRef r).tag = true)
    (hinv : AInv st)
    (h : addAssoc refs st id oref = .ok st') :
    AInv st' ∧ (∀ id0 nt, nt ∈ refsOf st id0 → nt ∈ refsOf st' id0) ∧
      (∀ r, oref = some r → isCanonical r = false → overriddenRef refs r ∈ refsOf st' id) := by
  unfold addAssoc at h
  have hEnsInv : AInv ({ st with imgDescr := ensureDescr id st.imgDescr } : AssocState δ) := by
    obtain ⟨h1, h2⟩ := hinv
    constructor
    · intro id0 nt hm
      rw [refsOf_ensure] at hm
      exact h1 id0 nt hm
    · intro ida idb nt1 nt2 hm1 hm2
      rw [refsOf_ensure] at hm1 hm2
      exact h2 ida idb nt1 nt2 hm1 hm2
  cases oref with
  | none =>
    have h2 : Except.ok ({ st with imgDescr := ensureDescr id st.imgDescr } : AssocState δ) =
        Except.ok st' := h
    cases h2
    refine ⟨hEnsInv, fun id0 nt hm => ?_, fun r hr => Option.noConfusion hr⟩
    rw [refsOf_ensure]
    exact hm
  | some r =>
    have h3 : (if isCanonical r = true then
          Except.ok ({ st with imgDescr := ensureDescr id st.imgDescr } : AssocState δ)
        else addAssocRef refs ({ st with imgDescr := ensureDescr id st.imgDescr } : AssocState δ)
          id r) = Except.ok st' := h
    cases hcan : isCanonical r with
    | true =>
      rw [if_pos hcan] at h3
      cases h3
      refine ⟨hEnsInv, fun id0 nt hm => ?_, ?_⟩
      · rw [refsOf_ensure]
        exact hm
      · intro r' hr' hnc'
        injection hr' with hrr
        subst hrr
        rw [hcan] at hnc'
        exact Bool.noConfusion hnc'
    | false =>
      rw [if_neg (by simp [hcan])] at h3
      obtain ⟨hmem, hinv', hmono⟩ :=
        addAssocRef_ok_spec refs _ id r st' hv (hcf r rfl hcan) hEnsInv h3
      refine ⟨hinv', ?_, ?_⟩
      · intro id0 nt hm
        apply hmono
        rw [refsOf_ensure]
        exact hm
      · intro r' hr' _
        injection hr' with hrr
        subst hrr
        exact hmem

theorem addAssocCore_error {δ : Type} [DecidableEq δ] (st : AssocState δ) (id : δ)
    (tg : NamedTagged) (e : String) (h : addAssocCore st id tg = .error e) :
    e = dupMsg tg.tag := by
  unfold addAssocCore at h
  by_cases hdup : (refsOf st id).any (fun t => ntString tg = ntString t) = true
  · rw [if_pos hdup] at h
    exact Except.noConfusion h
  · rw [if_neg hdup] at h
    by_cases hmemt : tg.tag ∈ st.tags
    · rw [if_pos hmemt] at h
      cases h
      rfl
    · rw [if_neg hmemt] at h
      exact Except.noConfusion h

theorem addAssocRef_error_form {δ : Type} [DecidableEq δ] (refs : List (String × String))
    (st : AssocState δ) (id : δ) (r : Ref) (e : String)
    (h : addAssocRef refs st id r = .error e) :
    (∃ t, e = dupMsg t) ∨
      (∃ k o, alookup k refs = some o ∧ validTag o = false ∧ e = invalidTagMsg o) := by
  unfold addAssocRef at h
  cases hov : withOverride refs (normalizeRef r) with
  | error e' =>
    simp only [hov] at h
    cases h
    exact Or.inr (withOverride_error hov)
  | ok tg =>
    simp only [hov] at h
    exact Or.inl ⟨tg.tag, addAssocCore_error st id tg e h⟩

theorem addAssoc_error_form {δ : Type} [DecidableEq δ] (refs : List (String × String))
    (st : AssocState δ) (id : δ) (oref : Option Ref) (e : String)
    (h : addAssoc refs st id oref = .error e) :
    (∃ t, e = dupMsg t) ∨
      (∃ k o, alookup k refs = some o ∧ validTag o = false ∧ e = invalidTagMsg o) := by
  unfold addAssoc at h
  cases oref with
  | none =>
    have h2 : Except.ok ({ st with imgDescr := ensureDescr id st.imgDescr } : AssocState δ) =
        Except.error e := h
    exact Except.noConfusion h2
  | some r =>
    have h3 : (if isCanonical r = true then
          Except.ok ({ st with imgDescr := ensureDescr id st.imgDescr } : AssocState δ)
        else addAssocRef refs ({ st with imgDescr := ensureDescr id st.imgDescr } : AssocState δ)
          id r) = Except.error e := h
    cases hcan : isCanonical r with
    | true =>
      rw [if_pos hcan] at h3
      exact Except.noConfusion h3
    | false =>
      rw [if_neg (by simp [hcan])] at h3
      exact addAssocRef_error_form refs _ id r e h3

theorem parseOCINames_ok_spec {δ : Type} [DecidableEq δ] (refs : List (String × String))
    (hv : ∀ p ∈ refs, validTag p.2 = true) :
    ∀ (entries : List (δ × Option Ref)) (st st' : AssocState δ),
    parseOCINames refs st entries = .ok st' →
    (∀ p ∈ entries, ∀ r, p.2 = some r → isCanonical r = false →
      colonFree (normalizeRef r).tag = true) →
    AInv st →
    AInv st' ∧ (∀ id0 nt, nt ∈ refsOf st id0 → nt ∈ refsOf st' id0) ∧
      (∀ id r, (id, some r) ∈ entries → isCanonical r = false →
        overriddenRef refs r ∈ refsOf st' id) := by
  intro entries
  induction entries with
  | nil =>
    intro st st' h hcf hinv
    cases h
    exact ⟨hinv, fun _ _ hm => hm, fun id r hmem => absurd hmem (List.not_mem_nil _)⟩
  | cons p rest ih =>
    intro st st' h hcf hinv
    obtain ⟨id, oref⟩ := p
    simp only [parseOCINames] at h
    cases haa : addAssoc refs st id oref with
    | error e' =>
      simp only [haa] at h
      exact Except.noConfusion h
    | ok st1 =>
      simp only [haa] at h
      have hcf_head : ∀ r, oref = some r → isCanonical r = false →
          colonFree (normalizeRef r).tag = true :=
        fun r hr hnc => hcf (id, oref) (List.mem_cons_self _ _) r hr hnc
      obtain ⟨hinv1, hmono1, hhead⟩ := addAssoc_ok_spec refs st id oref st1 hv hcf_head hinv haa
      have hcf_rest : ∀ p ∈ rest, ∀ r, p.2 = some r → isCanonical r = false →
          colonFree (normalizeRef r).tag = true :=
        fun p hp => hcf p (List.mem_cons_of_mem _ hp)
      obtain ⟨hinv', hmono2, hrest⟩ := ih st1 st' h hcf_rest hinv1
      refine ⟨hinv', fun id0 nt hm => hmono2 id0 nt (hmono1 id0 nt hm), ?_⟩
      intro id' r hmem hnc
      rcases List.mem_cons.mp hmem with hhd | htl
      · injection hhd with h1 h2
        subst h1
        exact hmono2 _ _ (hhead r h2.symm hnc)
      · exact hrest id' r htl hnc

theorem parseOCINames_error_form {δ : Type} [DecidableEq δ] (refs : List (String × String)) :
    ∀ (entries : List (δ × Option Ref)) (st : AssocState δ) (e : String),
    parseOCINames refs st entries = .error e →
    (∃ t, e = dupMsg t) ∨
      (∃ k o, alookup k refs = some o ∧ validTag o = false ∧ e = invalidTagMsg o) := by
  intro entries
  induction entries with
  | nil =>
    intro st e h
    exact Except.noConfusion h
  | cons p rest ih =>
    intro st e h
    obtain ⟨id, oref⟩ := p
    simp only [parseOCINames] at h
    cases haa : addAssoc refs st id oref with
    | error e' =>
      simp only [haa] at h
      cases h
      exact addAssoc_error_form refs st id oref _ haa
    | ok st1 =>
      simp only [haa] at h
      exact ih st1 e h

theorem addAssocCore_ok_origin {δ : Type} [DecidableEq δ] (refs : List (String × String))
    (entries : List (δ × Option Ref)) (st : AssocState δ) (id : δ) (r : Ref)
    (st' : AssocState δ)
    (hmem : (id, some r) ∈ entries) (hnc : isCanonical r = false)
    (horig : OriginInv refs entries st) (htor : TagOrigin st)
    (h : addAssocCore st id (overriddenRef refs r) = .ok st') :
    OriginInv refs entries st' ∧ TagOrigin st' := by
  unfold addAssocCore at h
  by_cases hdup : (refsOf st id).any (fun t => ntString (overriddenRef refs r) = ntString t) = true
  · rw [if_pos hdup] at h
    cases h
    exact ⟨horig, htor⟩
  · rw [if_neg hdup] at h
    by_cases hmemt : (overriddenRef refs r).tag ∈ st.tags
    · rw [if_pos hmemt] at h
      exact Except.noConfusion h
    · rw [if_neg hmemt] at h
      cases h
      have hmemiff : ∀ id0 nt,
          nt ∈ refsOf ({ imgDescr := appendRef id (overriddenRef refs r) st.imgDescr, tags := (overriddenRef refs r).tag :: st.tags } :
            AssocState δ) id0 ↔
            nt ∈ refsOf st id0 ∨ (id0 = id ∧ nt = overriddenRef refs r) := by
        intro id0 nt
        exact mem_refsOf_append st.imgDescr id _ id0 nt
      constructor
      · intro id0 nt hm
        rcases (hmemiff id0 nt).mp hm with hm' | ⟨rfl, rfl⟩
        · exact horig id0 nt hm'
        · exact ⟨r, hmem, hnc, rfl⟩
      · intro t ht
        have ht2 : t ∈ (overriddenRef refs r).tag :: st.tags := ht
        rcases List.mem_cons.mp ht2 with rfl | htl
        · exact ⟨id, overriddenRef refs r,
            (hmemiff id (overriddenRef refs r)).mpr (Or.inr ⟨rfl, rfl⟩), rfl⟩
        · obtain ⟨id0, nt0, hm0, hts0⟩ := htor t htl
          exact ⟨id0, nt0, (hmemiff id0 nt0).mpr (Or.inl hm0), hts0⟩

theorem addAssocCore_error_conflict {δ : Type} [DecidableEq δ] (refs : List (String × String))
    (entries : List (δ × Option Ref)) (st : AssocState δ) (id : δ) (r : Ref) (e : String)
    (hmem : (id, some r) ∈ entries) (hnc : isCanonical r = false)
    (horig : OriginInv refs entries st) (htor : TagOrigin st)
    (h : addAssocCore st id (overriddenRef refs r) = .error e) :
    ∃ t, e = dupMsg t ∧ IsConflictTag refs entries t := by
  unfold addAssocCore at h
  by_cases hdup : (refsOf st id).any (fun t => ntString (overriddenRef refs r) = ntString t) = true
  · rw [if_pos hdup] at h
    exact Except.noConfusion h
  · rw [if_neg hdup] at h
    by_cases hmemt : (overriddenRef refs r).tag ∈ st.tags
    · rw [if_pos hmemt] at h
      cases h
      obtain ⟨id1, nt1, hm1, ht1⟩ := htor _ hmemt
      obtain ⟨r1, hr1mem, hr1nc, hr1eq⟩ := horig id1 nt1 hm1
      refine ⟨(overriddenRef refs r).tag, rfl,
        id1, id, r1, r, hr1mem, hmem, hr1nc, hnc, ?_, rfl, ?_⟩
      · rw [← hr1eq]
        exact ht1
      · by_cases hid : id1 = id
        · refine Or.inl ?_
          intro hs
          apply hdup
          refine List.any_eq_true.mpr ⟨nt1, hid ▸ hm1, ?_⟩
          have hs2 : ntString (overriddenRef refs r) = ntString nt1 := by
            rw [hr1eq]
            exact hs.symm
          exact decide_eq_true hs2
        · exact Or.inr hid
    · rw [if_neg hmemt] at h
      exact Except.noConfusion h

theorem addAssoc_ok_origin {δ : Type} [DecidableEq δ] (refs : List (String × String))
    (entries : List (δ × Option Ref)) (st : AssocState δ) (id : δ) (oref : Option Ref)
    (st' : AssocState δ)
    (hmem : ∀ r, oref = some r → (id, some r) ∈ entries)
    (hv : ∀ p ∈ refs, validTag p.2 = true)
    (horig : OriginInv refs entries st) (htor : TagOrigin st)
    (h : addAssoc refs st id oref = .ok st') :
    OriginInv refs entries st' ∧ TagOrigin st' := by
  unfold addAssoc at h
  have horigE : OriginInv refs entries
      ({ st with imgDescr := ensureDescr id st.imgDescr } : AssocState δ) := by
    intro id0 nt hm
    rw [refsOf_ensure] at hm
    exact horig id0 nt hm
  have htorE : TagOrigin ({ st with imgDescr := ensureDescr id st.imgDescr } : AssocState δ) := by
    intro t ht
    obtain ⟨id0, nt, hm, hts⟩ := htor t ht
    refine ⟨id0, nt, ?_, hts⟩
    rw [refsOf_ensure]
    exact hm
  cases oref with
  | none =>
    have h2 : Except.ok ({ st with imgDescr := ensureDescr id st.imgDescr } : AssocState δ) =
        Except.ok st' := h
    cases h2
    exact ⟨horigE, htorE⟩
  | some r =>
    have h3 : (if isCanonical r = true then
          Except.ok ({ st with imgDescr := ensureDescr id st.imgDescr } : AssocState δ)
        else addAssocRef refs ({ st with imgDescr := ensureDescr id st.imgDescr } : AssocState δ)
          id r) = Except.ok st' := h
    cases hcan : isCanonical r with
    | true =>
      rw [if_pos hcan] at h3
      cases h3
      exact ⟨horigE, htorE⟩
    | false =>
      rw [if_neg (by simp [hcan])] at h3
      unfold addAssocRef at h3
      rw [withOverride_ok hv] at h3
      have h4 : addAssocCore ({ st with imgDescr := ensureDescr id st.imgDescr } : AssocState δ)
          id (overriddenRef refs r) = .ok st' := h3
      exact addAssocCore_ok_origin refs entries _ id r st' (hmem r rfl) hcan horigE htorE h4

theorem addAssoc_error_conflict {δ : Type} [DecidableEq δ] (refs : List (String × String))
    (entries : List (δ × Option Ref)) (st : AssocState δ) (id : δ) (oref : Option Ref)
    (e : String)
    (hmem : ∀ r, oref = some r → (id, some r) ∈ entries)
    (hv : ∀ p ∈ refs, validTag p.2 = true)
    (horig : OriginInv refs entries st) (htor : TagOrigin st)
    (h : addAssoc refs st id oref = .error e) :
    ∃ t, e = dupMsg t ∧ IsConflictTag refs entries t := by
  unfold addAssoc at h
  have horigE : OriginInv refs entries
      ({ st with imgDescr := ensureDescr id st.imgDescr } : AssocState δ) := by
    intro id0 nt hm
    rw [refsOf_ensure] at hm
    exact horig id0 nt hm
  have htorE : TagOrigin ({ st with imgDescr := ensureDescr id st.imgDescr } : AssocState δ) := by
    intro t ht
    obtain ⟨id0, nt, hm, hts⟩ := htor t ht
    refine ⟨id0, nt, ?_, hts⟩
    rw [refsOf_ensure]
    exact hm
  cases oref with
  | none =>
    have h2 : Except.ok ({ st with imgDescr := ensureDescr id st.imgDescr } : AssocState δ) =
        Except.error e := h
    exact Except.noConfusion h2
  | some r =>
    have h3 : (if isCanonical r = true then
          Except.ok ({ st with imgDescr := ensureDescr id st.imgDescr } : AssocState δ)
        else addAssocRef refs ({ st with imgDescr := ensureDescr id st.imgDescr } : AssocState δ)
          id r) = Except.error e := h
    cases hcan : isCanonical r with
    | true =>
      rw [if_pos hcan] at h3
      exact Except.noConfusion h3
    | false =>
      rw [if_neg (by simp [hcan])] at h3
      unfold addAssocRef at h3
      rw [withOverride_ok hv] at h3
      have h4 : addAssocCore ({ st with imgDescr := ensureDescr id st.imgDescr } : AssocState δ)
          id (overriddenRef refs r) = .error e := h3
      exact addAssocCore_error_conflict refs entries _ id r e (hmem r rfl) hcan horigE htorE h4

theorem parseOCINames_error_conflict {δ : Type} [DecidableEq δ] (refs : List (String × String))
    (entries0 : List (δ × Option Ref))
    (hv : ∀ p ∈ refs, validTag p.2 = true) :
    ∀ (entries : List (δ × Option Ref)) (st : AssocState δ) (e : String),
    (∀ p ∈ entries, p ∈ entries0) →
    OriginInv refs entries0 st → TagOrigin st →
    parseOCINames refs st entries = .error e →
    ∃ t, e = dupMsg t ∧ IsConflictTag refs entries0 t := by
  intro entries
  induction entries with
  | nil =>
    intro st e _ _ _ h
    exact Except.noConfusion h
  | cons p rest ih =>
    intro st e hsub horig htor h
    obtain ⟨id, oref⟩ := p
    simp only [parseOCINames] at h
    cases haa : addAssoc refs st id oref with
    | error e' =>
      simp only [haa] at h
      cases h
      exact addAssoc_error_conflict refs entries0 st id oref _
        (fun r hr => hr ▸ hsub (id, oref) (List.mem_cons_self _ _)) hv horig htor haa
    | ok st1 =>
      simp only [haa] at h
      obtain ⟨horig1, htor1⟩ := addAssoc_ok_origin refs entries0 st id oref st1
        (fun r hr => hr ▸ hsub (id, oref) (List.mem_cons_self _ _)) hv horig htor haa
      exact ih st1 e (fun p hp => hsub p (List.mem_cons_of_mem _ hp)) horig1 htor1 h

/-- C3 counterexample to the frozen claim: with two independent tag
conflicts (tag `a` between images 1 and 2, tag `b` between images 3
and 4) the resolution loop reports only the first collision its
session-global `tags` map reaches: the error names `a`, not `b`,
although the `b`-pair — two distinct non-canonical references sharing a
tag component — satisfies every hypothesis of the claim, so the error
does not name that pair's tag. -/
theorem parseOCINames_second_conflict_unnamed :
    parseOCINames ([] : List (String × String))
        ({ imgDescr := [], tags := [] } : AssocState Nat) demoTwoConflictEntries =
      .error (dupMsg "a") ∧
    (3, some (Ref.tagged { name := "busybox2", tag := "b" })) ∈ demoTwoConflictEntries ∧
    (4, some (Ref.tagged { name := "frombusybox1", tag := "b" })) ∈ demoTwoConflictEntries ∧
    ntString (overriddenRef [] (Ref.tagged { name := "busybox2", tag := "b" })) ≠
      ntString (overriddenRef [] (Ref.tagged { name := "frombusybox1", tag := "b" })) ∧
    (overriddenRef [] (Ref.tagged { name := "busybox2", tag := "b" })).tag =
      (overriddenRef [] (Ref.tagged { name := "frombusybox1", tag := "b" })).tag ∧
    dupMsg "a" ≠ dupMsg "b" :=
  ⟨rfl, by decide, by decide, by decide, rfl, by decide⟩

/-- C3 (amended): if, after applying the `--ref` override map, two
distinct non-canonical references (of the same or of different resolved
images) carry the same tag component, OCI name resolution fails with the
`unable to include unique references "<t>" in OCI image` error, where
the named tag `t` is itself the shared tag component of an actual
conflicting pair among the input's overridden references — so whenever
the given pair's tag is the only conflict tag, the error names exactly
that tag (also when the override touched only a subset of the
conflicting references: the conflict is computed on the overridden
forms). -/
theorem parseOCINames_duplicate_tag {δ : Type} [DecidableEq δ] (refs : List (String × String))
    (entries : List (δ × Option Ref)) (id1 id2 : δ) (r1 r2 : Ref)
    (h1 : (id1, some r1) ∈ entries) (h2 : (id2, some r2) ∈ entries)
    (hnc1 : isCanonical r1 = false) (hnc2 : isCanonical r2 = false)
    (hcf : ∀ p ∈ entries, ∀ r, p.2 = some r → isCanonical r = false →
      colonFree (normalizeRef r).tag = true)
    (hv : ∀ p ∈ refs, validTag p.2 = true)
    (hne : ntString (overriddenRef refs r1) ≠ ntString (overriddenRef refs r2))
    (htag : (overriddenRef refs r1).tag = (overriddenRef refs r2).tag) :
    ∃ t, parseOCINames refs { imgDescr := [], tags := [] } entries = .error (dupMsg t) ∧
      IsConflictTag refs entries t ∧
      ((∀ t0, IsConflictTag refs entries t0 → t0 = (overriddenRef refs r1).tag) →
        t = (overriddenRef refs r1).tag) := by
  cases hres : parseOCINames refs ({ imgDescr := [], tags := [] } : AssocState δ) entries with
  | ok st' =>
    exfalso
    have hinv0 : AInv ({ imgDescr := [], tags := [] } : AssocState δ) := by
      constructor
      · intro id nt hm
        simp [refsOf, alookup] at hm
      · intro ida idb nt1 nt2 hm1
        simp [refsOf, alookup] at hm1
    obtain ⟨⟨_, htaginj⟩, _, hentry⟩ :=
      parseOCINames_ok_spec refs hv entries _ st' hres hcf hinv0
    have hin1 := hentry id1 r1 h1 hnc1
    have hin2 := hentry id2 r2 h2 hnc2
    have heq := htaginj id1 id2 _ _ hin1 hin2 htag
    exact hne (by rw [heq])
  | error e =>
    have horig0 : OriginInv refs entries ({ imgDescr := [], tags := [] } : AssocState δ) := by
      intro id nt hm
      simp [refsOf, alookup] at hm
    have htor0 : TagOrigin ({ imgDescr := [], tags := [] } : AssocState δ) := by
      intro t ht
      exact absurd ht (List.not_mem_nil t)
    obtain ⟨t, het, hconf⟩ :=
      parseOCINames_error_conflict refs entries hv entries _ e (fun p hp => hp) horig0 htor0 hres
    refine ⟨t, ?_, hconf, fun huniq => huniq t hconf⟩
    rw [het]

theorem parseOCINames_duplicate_tag_witness :
    (∃ t, parseOCINames ([] : List (String × String))
        ({ imgDescr := [], tags := [] } : AssocState Nat) demoConflictEntries =
          .error (dupMsg t) ∧
      IsConflictTag [] demoConflictEntries t ∧
      ((∀ t0, IsConflictTag [] demoConflictEntries t0 →
          t0 = (overriddenRef []
            (Ref.tagged { name := "busybox", tag := "latest" })).tag) →
        t = (overriddenRef [] (Ref.tagged { name := "busybox", tag := "latest" })).tag)) ∧
    parseOCINames ([] : List (String × String))
        ({ imgDescr := [], tags := [] } : AssocState Nat) demoConflictEntries =
      .error (dupMsg "latest") :=
  ⟨parseOCINames_duplicate_tag [] demoConflictEntries
    1 2 (Ref.tagged { name := "busybox", tag := "latest" })
    (Ref.tagged { name := "frombusybox0", tag := "latest" })
    (by decide) (by decide) rfl rfl (by decide) (by decide) (by decide) rfl, rfl⟩

theorem upsert_mem {α γ : Type} [DecidableEq α] (k : α) (v : γ) (l : List (α × γ)) :
    ∀ p ∈ upsert k v l, p = (k, v) ∨ p ∈ l := by
  induction l with
  | nil =>
    intro p hp
    simp [upsert] at hp
    exact Or.inl hp
  | cons hd tl ih =>
    obtain ⟨k0, v0⟩ := hd
    intro p hp
    by_cases h0 : k0 = k
    · have hup : upsert k v ((k0, v0) :: tl) = (k, v) :: tl := by simp [upsert, h0]
      rw [hup, List.mem_cons] at hp
      rcases hp with hp | hp
      · exact Or.inl hp
      · exact Or.inr (List.mem_cons_of_mem _ hp)
    · have hup : upsert k v ((k0, v0) :: tl) = (k0, v0) :: upsert k v tl := by
        simp [upsert, h0]
      rw [hup, List.mem_cons] at hp
      rcases hp with hp | hp
      · exact Or.inr (by simp [hp])
      · rcases ih p hp with hp' | hp'
        · exact Or.inl hp'
        · exact Or.inr (List.mem_cons_of_mem _ hp')

theorem goodBlobs_upsert {δ β : Type} [DecidableEq δ] (env : Env δ β) (img : Image δ β)
    (blobs : List (δ × β)) (b : β) (hb : b ∈ sessionBlobs env img)
    (hg : GoodBlobs env img blobs) :
    GoodBlobs env img (upsert (env.hash b) b blobs) := by
  intro p hp
  rcases upsert_mem _ _ _ p hp with hp' | hp'
  · subst hp'
    exact ⟨hb, rfl⟩
  · exact hg p hp'

theorem saveLayers_spec {δ β : Type} [DecidableEq δ] (env : Env δ β) (img : Image δ β)
    (hls : ∀ pre d post, img.diffIDs = pre ++ d :: post →
      env.lsGet (pre ++ [d]) = some { diffID := d }) :
    ∀ (rest done : List δ) (st : SaveState δ β) (m : Manifest δ),
    done ++ rest = img.diffIDs →
    GoodBlobs env img st.archive.blobs →
    GoodCache env st.diffIDsCache →
    ∃ st', saveLayers env st m done rest =
        .ok (st', { m with layers := m.layers ++ rest.map (layerDescOf env) }) ∧
      GoodBlobs env img st'.archive.blobs ∧ GoodCache env st'.diffIDsCache ∧
      st'.archive.refFiles = st.archive.refFiles ∧ st'.savedImages = st.savedImages ∧
      (∀ k, alookup k st.archive.blobs ≠ none → alookup k st'.archive.blobs ≠ none) := by
  intro rest
  induction rest with
  | nil =>
    intro done st m _ hgb hgc
    refine ⟨st, ?_, hgb, hgc, rfl, rfl, fun _ hk => hk⟩
    simp [saveLayers]
  | cons d rest' ih =>
    intro done st m hdr hgb hgc
    have hsplit : img.diffIDs = done ++ d :: rest' := hdr.symm
    have hlsd : env.lsGet (done ++ [d]) = some { diffID := d } := hls done d rest' hsplit
    have hdr' : (done ++ [d]) ++ rest' = img.diffIDs := by
      rw [List.append_assoc]
      simpa using hdr
    cases hcac : alookup d st.diffIDsCache with
    | some v =>
      obtain ⟨dg, sz⟩ := v
      have hv := hgc d (dg, sz) hcac
      have hstep : saveLayers env st m done (d :: rest') = saveLayers env st { m with layers := m.layers ++ [{ mediaType := mediaTypeLayer, digest := dg, size := sz }] } (done ++ [d]) rest' := by
        simp only [saveLayers, hlsd, hcac]
      obtain ⟨st', hrun, hgb', hgc', hrf, hsv, hpres⟩ :=
        ih (done ++ [d]) st { m with layers := m.layers ++ [{ mediaType := mediaTypeLayer, digest := dg, size := sz }] } hdr' hgb hgc
      refine ⟨st', ?_, hgb', hgc', hrf, hsv, hpres⟩
      rw [hstep, hrun]
      have hdg : ({ mediaType := mediaTypeLayer, digest := dg, size := sz } : Descriptor δ) =
          layerDescOf env d := by
        have h1 : dg = env.hash (gzipTar env d) := congrArg Prod.fst hv
        have h2 : sz = env.blobLen (gzipTar env d) := congrArg Prod.snd hv
        rw [h1, h2]
        rfl
      rw [hdg]
      simp [List.append_assoc]
    | none =>
      have hmemd : d ∈ img.diffIDs := by
        rw [hsplit]
        exact List.mem_append_right _ (List.mem_cons_self _ _)
      have hstep : saveLayers env st m done (d :: rest') = saveLayers env { st with archive := (putBlob env st.archive (gzipTar env d)).1, diffIDsCache := upsert d ((putBlob env st.archive (gzipTar env d)).2.1, (putBlob env st.archive (gzipTar env d)).2.2) st.diffIDsCache, events := st.events ++ [SaveEvent.compress d] } { m with layers := m.layers ++ [{ mediaType := mediaTypeLayer, digest := (putBlob env st.archive (gzipTar env d)).2.1, size := (putBlob env st.archive (gzipTar env d)).2.2 }] } (done ++ [d]) rest' := by
        simp only [saveLayers, hlsd, hcac]
        rfl
      have hmem : gzipTar env d ∈ sessionBlobs env img := by
        unfold sessionBlobs
        exact List.mem_cons_of_mem _
          (List.mem_append_left _ (List.mem_map_of_mem (gzipTar env) hmemd))
      have hgb1 : GoodBlobs env img ((putBlob env st.archive (gzipTar env d)).1).blobs := by
        exact goodBlobs_upsert env img st.archive.blobs _ hmem hgb
      have hgc1 : GoodCache env (upsert d ((putBlob env st.archive (gzipTar env d)).2.1, (putBlob env st.archive (gzipTar env d)).2.2) st.diffIDsCache) := by
        intro d' v' hlk
        by_cases hd' : d' = d
        · subst hd'
          rw [alookup_upsert_self] at hlk
          cases hlk
          rfl
        · rw [alookup_upsert_ne _ _ hd'] at hlk
          exact hgc d' v' hlk
      obtain ⟨st', hrun, hgb', hgc', hrf, hsv, hpres⟩ :=
        ih (done ++ [d]) { st with archive := (putBlob env st.archive (gzipTar env d)).1, diffIDsCache := upsert d ((putBlob env st.archive (gzipTar env d)).2.1, (putBlob env st.archive (gzipTar env d)).2.2) st.diffIDsCache, events := st.events ++ [SaveEvent.compress d] } { m with layers := m.layers ++ [{ mediaType := mediaTypeLayer, digest := (putBlob env st.archive (gzipTar env d)).2.1, size := (putBlob env st.archive (gzipTar env d)).2.2 }] } hdr' hgb1 hgc1
      refine ⟨st', ?_, hgb', hgc', hrf, hsv, ?_⟩
      · rw [hstep, hrun]
        have hdg : ({ mediaType := mediaTypeLayer, digest := (putBlob env st.archive (gzipTar env d)).2.1, size := (putBlob env st.archive (gzipTar env d)).2.2 } : Descriptor δ) = layerDescOf env d := rfl
        rw [hdg]
        simp [List.append_assoc]
      · intro k hk
        apply hpres
        exact alookup_upsert_pres _ _ _ hk

theorem saveImage_spec {δ β : Type} [DecidableEq δ] (env : Env δ β) (img : Image δ β)
    (id : δ) (tag : String) (st : SaveState δ β)
    (hisGet : env.isGet id = some img)
    (hne : img.diffIDs ≠ [])
    (hls : ∀ pre d post, img.diffIDs = pre ++ d :: post →
      env.lsGet (pre ++ [d]) = some { diffID := d })
    (hcache0 : alookup id st.savedImages = none)
    (hgb : GoodBlobs env img st.archive.blobs)
    (hgc : GoodCache env st.diffIDsCache) :
    ∃ st', saveImage env st id tag = .ok st' ∧
      st'.archive.refFiles = upsert tag { mediaType := mediaTypeManifest, digest := env.hash (env.encodeManifest (manifestOf env img)), size := env.blobLen (env.encodeManifest (manifestOf env img)) } st.archive.refFiles ∧
      alookup (env.hash (env.encodeManifest (manifestOf env img))) st'.archive.blobs = some (env.encodeManifest (manifestOf env img)) ∧
      alookup (env.hash img.rawJSON) st'.archive.blobs ≠ none ∧
      GoodBlobs env img st'.archive.blobs := by
  have hne' : ¬(img.diffIDs.isEmpty = true) := by
    cases hd : img.diffIDs with
    | nil => exact absurd hd hne
    | cons a l => simp
  have hstep : saveImage env st id tag = (match saveLayers env { st with archive := (putBlob env st.archive img.rawJSON).1, events := st.events ++ [SaveEvent.config id] } { schemaVersion := 2, mediaType := mediaTypeManifest, config := { mediaType := mediaTypeConfig, digest := (putBlob env st.archive img.rawJSON).2.1, size := (putBlob env st.archive img.rawJSON).2.2 }, layers := [] } [] img.diffIDs with
      | .error e => Except.error e
      | .ok (st2, m) => Except.ok { st2 with archive := putManifest env st2.archive tag (env.encodeManifest m), savedImages := upsert id (env.encodeManifest m) st2.savedImages, events := st2.events ++ [SaveEvent.manifest tag] }) := by
    unfold saveImage
    simp only [hcache0, hisGet]
    rw [if_neg hne']
  have hgb1 : GoodBlobs env img (((putBlob env st.archive img.rawJSON).1).blobs) := by
    have hmem : img.rawJSON ∈ sessionBlobs env img := List.mem_cons_self _ _
    exact goodBlobs_upsert env img st.archive.blobs _ hmem hgb
  obtain ⟨st2, hrun, hgb2, hgc2, hrf2, hsv2, hpres2⟩ :=
    saveLayers_spec env img hls img.diffIDs []
      { st with archive := (putBlob env st.archive img.rawJSON).1,
                events := st.events ++ [SaveEvent.config id] }
      { schemaVersion := 2, mediaType := mediaTypeManifest, config := { mediaType := mediaTypeConfig, digest := (putBlob env st.archive img.rawJSON).2.1, size := (putBlob env st.archive img.rawJSON).2.2 }, layers := [] }
      (by simp) hgb1 hgc
  have hfin : saveImage env st id tag = .ok { st2 with archive := putManifest env st2.archive tag (env.encodeManifest (manifestOf env img)), savedImages := upsert id (env.encodeManifest (manifestOf env img)) st2.savedImages, events := st2.events ++ [SaveEvent.manifest tag] } := by
    rw [hstep, hrun]
    rfl
  refine ⟨_, hfin, ?_, ?_, ?_, ?_⟩
  · show upsert tag _ st2.archive.refFiles = _
    rw [hrf2]
    rfl
  · show alookup _ (upsert (env.hash (env.encodeManifest (manifestOf env img))) (env.encodeManifest (manifestOf env img)) st2.archive.blobs) = _
    exact alookup_upsert_self _ _ _
  · show alookup _ (upsert (env.hash (env.encodeManifest (manifestOf env img))) (env.encodeManifest (manifestOf env img)) st2.archive.blobs) ≠ none
    apply alookup_upsert_pres
    apply hpres2
    show alookup _ (upsert (env.hash img.rawJSON) img.rawJSON st.archive.blobs) ≠ none
    rw [alookup_upsert_self]
    simp
  · show GoodBlobs env img (upsert (env.hash (env.encodeManifest (manifestOf env img))) (env.encodeManifest (manifestOf env img)) st2.archive.blobs)
    apply goodBlobs_upsert
    · unfold sessionBlobs
      exact List.mem_cons_of_mem _ (List.mem_append_right _ (List.mem_cons_self _ _))
    · exact hgb2

theorem checkLayers_ok_of_ls {δ β : Type} [DecidableEq δ] (env : Env δ β) (a : OCIArchive δ β)
    (m : Manifest δ) (img : Image δ β)
    (hls : ∀ pre d post, img.diffIDs = pre ++ d :: post →
      env.lsGet (pre ++ [d]) = some { diffID := d }) :
    ∀ (rest done : List δ) (i : Nat), done ++ rest = img.diffIDs →
    checkLayers env a m done i rest = .ok () := by
  intro rest
  induction rest with
  | nil => intro done i _; rfl
  | cons d rest' ih =>
    intro done i hdr
    have hlsd : env.lsGet (done ++ [d]) = some { diffID := d } := hls done d rest' hdr.symm
    have hla : layerAt env a m done i d = .ok { diffID := d } := by
      unfold layerAt
      simp only [hlsd]
    have hdr' : (done ++ [d]) ++ rest' = img.diffIDs := by
      rw [List.append_assoc]
      simpa using hdr
    simp only [checkLayers, hla]
    rw [if_pos trivial]
    exact ih (done ++ [d]) (i + 1) hdr'

/-- C2: OCI round trip — saving an image in OCI format and loading the
resulting archive registers in the image store an image whose
configuration JSON bytes are byte-identical to the original's and whose
ImageID (the digest over those bytes) equals the original ImageID.
Hypotheses: the image is stored under its canonical ID, the layer store is
consistent with its DiffIDs, the digest is collision-free on the session's
blobs, and the JSON codecs invert on the session's manifest and config. -/
theorem ociSaveLoad_roundtrip {δ β : Type} [DecidableEq δ] (env : Env δ β) (img : Image δ β)
    (id : δ) (name tag : String) (st0 : LoadState δ β) (img2 : Image δ β)
    (hid : id = env.hash img.rawJSON)
    (hisGet : env.isGet id = some img)
    (hne : img.diffIDs ≠ [])
    (hls : ∀ pre d post, img.diffIDs = pre ++ d :: post →
      env.lsGet (pre ++ [d]) = some { diffID := d })
    (hno : ∀ b1 ∈ sessionBlobs env img, ∀ b2 ∈ sessionBlobs env img,
      env.hash b1 = env.hash b2 → b1 = b2)
    (hdecm : env.decodeManifest (env.encodeManifest (manifestOf env img)) =
      some (manifestOf env img))
    (hdeci : env.decodeImage img.rawJSON = some img2)
    (hdiff : img2.diffIDs = img.diffIDs) :
    ∃ stS, saveAll env emptySaveState [(id, [{ name := name, tag := tag }])] = .ok stS ∧
      ∃ stL out, loadOCI env stS.archive st0 = (stL, .ok out) ∧
        alookup id stL.is = some img.rawJSON := by
  obtain ⟨stS, hsi, hrf, hmanblob, hcfgpres, hgbS⟩ :=
    saveImage_spec env img id tag emptySaveState hisGet hne hls rfl
      (fun p hp => absurd hp (List.not_mem_nil p))
      (fun d v hv => by simp [emptySaveState, alookup] at hv)
  have hsaveAll : saveAll env emptySaveState [(id, [{ name := name, tag := tag }])] = .ok stS := by
    simp only [saveAll, saveRefs, hsi]
    rfl
  have hrfS : stS.archive.refFiles = [(tag, { mediaType := mediaTypeManifest, digest := env.hash (env.encodeManifest (manifestOf env img)), size := env.blobLen (env.encodeManifest (manifestOf env img)) })] := by
    rw [hrf]
    rfl
  have hcfg : alookup (env.hash img.rawJSON) stS.archive.blobs = some img.rawJSON := by
    cases hlk : alookup (env.hash img.rawJSON) stS.archive.blobs with
    | none => exact absurd hlk hcfgpres
    | some b =>
      obtain ⟨hbmem, hbhash⟩ := hgbS (env.hash img.rawJSON, b) (alookup_mem hlk)
      have hb : b = img.rawJSON := hno b hbmem img.rawJSON (List.mem_cons_self _ _) hbhash
      rw [hb]
  have hcoll : collectManifests env stS.archive stS.archive.refFiles [] =
      .ok [(tag, manifestOf env img)] := by
    rw [hrfS]
    simp only [collectManifests]
    simp only [hmanblob, hdecm]
    rfl
  have hlen : (manifestOf env img).layers.length = img2.diffIDs.length := by
    unfold manifestOf
    rw [hdiff]
    simp
  have hch : checkLayers env stS.archive (manifestOf env img) [] 0 img2.diffIDs = .ok () := by
    rw [hdiff]
    exact checkLayers_ok_of_ls env stS.archive (manifestOf env img) img hls img.diffIDs [] 0 rfl
  have hMcfg : (manifestOf env img).config.digest = env.hash img.rawJSON := rfl
  have hlm : loadManifest env stS.archive st0 (manifestOf env img) =
      ({ st0 with is := upsert (env.hash img.rawJSON) img.rawJSON st0.is },
       .ok ("Loaded image ID: " ++ env.digestStr (env.hash img.rawJSON) ++ "\n")) := by
    unfold loadManifest
    rw [hMcfg]
    simp only [hcfg, hdeci]
    rw [if_neg (by simp [hlen])]
    simp only [hch]
    unfold isCreate
    rfl
  have hload : loadOCI env stS.archive st0 =
      ({ st0 with is := upsert (env.hash img.rawJSON) img.rawJSON st0.is },
       .ok ("" ++ ("Loaded image ID: " ++ env.digestStr (env.hash img.rawJSON) ++ "\n"))) := by
    unfold loadOCI
    simp only [hcoll]
    simp only [loadOCIGo, hlm]
  refine ⟨stS, hsaveAll, _, _, hload, ?_⟩
  rw [hid]
  exact alookup_upsert_self _ _ _

theorem ociSaveLoad_roundtrip_witness :
    ∃ stS, saveAll demoEnv emptySaveState [(1, [{ name := "busybox", tag := "latest" }])] =
        .ok stS ∧
      ∃ stL out, loadOCI demoEnv stS.archive { is := [], rs := [] } = (stL, .ok out) ∧
        alookup 1 stL.is = some [7] :=
  ociSaveLoad_roundtrip demoEnv { rawJSON := [7], diffIDs := [5] } 1 "busybox" "latest"
    { is := [], rs := [] } { rawJSON := [7], diffIDs := [5] }
    rfl rfl (by decide)
    (by
      intro pre d post h
      cases pre with
      | nil =>
        simp only [List.nil_append] at h ⊢
        injection h with h1 h2
        subst h1
        rfl
      | cons a l =>
        have hlen := congrArg List.length h
        simp [List.length_append] at hlen)
    (by decide) rfl rfl rfl

end Docker
